import Mathlib

/-!
Verification development for the claude-code-sdk-ts repository.

The TypeScript source is embedded shallowly: JavaScript strings become
`List Char`, the mutable decoding loop of
`SubprocessCLITransport.receiveMessages` becomes a recursive function on the
buffer, the `Conversation` state machine becomes explicit state passing, and
timers become explicit events.  `JSON.parse` (a host builtin) is abstracted by
a success oracle `ok : List Char → Bool`; `JSON.stringify` is modelled by a
serializer over an inductive JSON value type.
-/

namespace SpecProof

/-- A JavaScript string, modelled as a list of characters. -/
abbrev JStr := List Char

/-! ## Frame scanner

`SubprocessCLITransport.receiveMessages` (subprocess-cli.ts, the `onData`
buffer parser) scans the accumulated buffer for a balanced `{...}`/`[...]`
span, tracking nesting `depth`, `inString` and `escaped` exactly as the
source's local variables do. -/

/-- Scanner state: the local variables `depth`, `inString`, `escaped` of the
candidate-frame scan loop in `receiveMessages`. -/
structure ScanSt where
  depth : Int
  inString : Bool
  escaped : Bool
deriving DecidableEq

/-- The scan of a candidate starts with `depth = 0`, `inString = false`,
`escaped = false`. -/
def scanInit : ScanSt := ⟨0, false, false⟩

/-- One character of the scan loop.  `none` means this character brought the
depth back to zero, i.e. the source's `jsonEnd = i + 1` assignment fires. -/
def scanStep (st : ScanSt) (c : Char) : Option ScanSt :=
  if st.escaped then some { st with escaped := false }
  else if c = '\\' then some { st with escaped := true }
  else if c = '"' then some { st with inString := !st.inString }
  else if !st.inString then
    if c = '{' ∨ c = '[' then some { st with depth := st.depth + 1 }
    else if c = '}' ∨ c = ']' then
      if st.depth - 1 = 0 then none else some { st with depth := st.depth - 1 }
    else some st
  else some st

/-- Total variant of `scanStep`: when the character closes the candidate the
state records the decremented (zero) depth. -/
def scanNext (st : ScanSt) (c : Char) : ScanSt :=
  match scanStep st c with
  | some st' => st'
  | none => { st with depth := st.depth - 1 }

/-- Length of the prefix consumed up to and including the character at which
the depth first returns to zero, if any (`jsonEnd - jsonStart` in the
source). -/
def scanFirst (st : ScanSt) : JStr → Option Nat
  | [] => none
  | c :: cs =>
    match scanStep st c with
    | none => some 1
    | some st' => (scanFirst st' cs).map (· + 1)

/-- Scanner state after consuming a whole segment. -/
def scanAll (st : ScanSt) : JStr → ScanSt
  | [] => st
  | c :: cs => scanAll (scanNext st c) cs

theorem scanFirst_pos {st : ScanSt} {cs : JStr} {n : Nat}
    (h : scanFirst st cs = some n) : 1 ≤ n := by
  cases cs with
  | nil => simp [scanFirst] at h
  | cons c cs =>
    simp only [scanFirst] at h
    cases hs : scanStep st c with
    | none =>
      rw [hs] at h
      have h1 : (1 : Nat) = n := Option.some.inj h
      omega
    | some st' =>
      rw [hs, Option.map_eq_some'] at h
      obtain ⟨m, _, hm⟩ := h
      omega

theorem scanFirst_le {st : ScanSt} {cs : JStr} {n : Nat}
    (h : scanFirst st cs = some n) : n ≤ cs.length := by
  induction cs generalizing st n with
  | nil => simp [scanFirst] at h
  | cons c cs ih =>
    simp only [scanFirst] at h
    cases hs : scanStep st c with
    | none =>
      rw [hs] at h
      have h1 : (1 : Nat) = n := Option.some.inj h
      simp only [List.length_cons]
      omega
    | some st' =>
      simp only [hs, Option.map_eq_some'] at h
      obtain ⟨m, hm, rfl⟩ := h
      have := ih hm
      simp [List.length_cons]
      omega

theorem scanFirst_append_of_some {st : ScanSt} {xs : JStr} {n : Nat}
    (h : scanFirst st xs = some n) (ys : JStr) :
    scanFirst st (xs ++ ys) = some n := by
  induction xs generalizing st n with
  | nil => simp [scanFirst] at h
  | cons c cs ih =>
    simp only [scanFirst, List.cons_append] at h ⊢
    cases hs : scanStep st c with
    | none => simpa [hs] using h
    | some st' =>
      simp only [hs, Option.map_eq_some'] at h
      obtain ⟨m, hm, rfl⟩ := h
      simp [ih hm]

theorem scanFirst_append_of_none {st : ScanSt} {xs : JStr}
    (h : scanFirst st xs = none) (ys : JStr) :
    scanFirst st (xs ++ ys) = (scanFirst (scanAll st xs) ys).map (· + xs.length) := by
  induction xs generalizing st with
  | nil => simp [scanAll]
  | cons c cs ih =>
    simp only [scanFirst] at h
    cases hs : scanStep st c with
    | none => simp [hs] at h
    | some st' =>
      rw [hs, Option.map_eq_none'] at h
      have hnext : scanNext st c = st' := by simp [scanNext, hs]
      have l1 : scanFirst st ((c :: cs) ++ ys) = (scanFirst st' (cs ++ ys)).map (· + 1) := by
        simp [scanFirst, hs]
      have l2 : scanAll st (c :: cs) = scanAll st' cs := by
        simp [scanAll, hnext]
      rw [l1, ih h, l2]
      cases scanFirst (scanAll st' cs) ys with
      | none => simp
      | some k =>
        simp only [Option.map_some', Option.some.injEq, List.length_cons]
        omega

theorem scanAll_append (st : ScanSt) (xs ys : JStr) :
    scanAll st (xs ++ ys) = scanAll (scanAll st xs) ys := by
  induction xs generalizing st with
  | nil => simp [scanAll]
  | cons c cs ih => simp [scanAll, ih]

theorem scanFirst_take {st : ScanSt} {cs : JStr} {n : Nat}
    (h : scanFirst st cs = some n) : scanFirst st (cs.take n) = some n := by
  induction cs generalizing st n with
  | nil => simp [scanFirst] at h
  | cons c cs ih =>
    simp only [scanFirst] at h
    cases hs : scanStep st c with
    | none =>
      simp only [hs] at h
      cases h
      simp [List.take_succ_cons, scanFirst, hs]
    | some st' =>
      simp only [hs, Option.map_eq_some'] at h
      obtain ⟨m, hm, rfl⟩ := h
      simp [List.take_succ_cons, scanFirst, hs, ih hm]

/-! ## JSON values and `JSON.stringify`

A model of the JSON values the CLI emits as stdout frames, together with a
serializer mirroring `JSON.stringify` on those values (string literals escape
the quote, backslash and newline characters; other characters are emitted
verbatim).  Frames quantified over in the decoder theorems are serializations
of such values. -/

mutual
inductive Json where
  | null : Json
  | bool (b : Bool) : Json
  | num (n : Nat) : Json
  | str (s : JStr) : Json
  | arr (elems : JsonList) : Json
  | obj (fields : JsonFields) : Json
inductive JsonList where
  | nil : JsonList
  | cons (hd : Json) (tl : JsonList) : JsonList
inductive JsonFields where
  | nil : JsonFields
  | cons (key : JStr) (val : Json) (tl : JsonFields) : JsonFields
end

/-- Decimal digit character. -/
def digitChar : Nat → Char
  | 0 => '0'
  | 1 => '1'
  | 2 => '2'
  | 3 => '3'
  | 4 => '4'
  | 5 => '5'
  | 6 => '6'
  | 7 => '7'
  | 8 => '8'
  | _ => '9'

/-- Decimal representation of a natural number. -/
def natChars (n : Nat) : JStr :=
  if h : n < 10 then [digitChar n]
  else natChars (n / 10) ++ [digitChar (n % 10)]
decreasing_by exact Nat.div_lt_self (by omega) (by omega)

/-- `JSON.stringify` escaping of one string character. -/
def escChar (c : Char) : JStr :=
  if c = '"' ∨ c = '\\' then ['\\', c]
  else if c = '\n' then ['\\', 'n']
  else [c]

/-- Escaped body of a string literal. -/
def escStr (s : JStr) : JStr := (s.map escChar).flatten

/-- A serialized JSON string literal. -/
def litStr (s : JStr) : JStr := '"' :: (escStr s ++ ['"'])

mutual
/-- `JSON.stringify` of a JSON value. -/
def serJson : Json → JStr
  | .null => "null".toList
  | .bool true => "true".toList
  | .bool false => "false".toList
  | .num n => natChars n
  | .str s => litStr s
  | .arr es => '[' :: (serList es ++ [']'])
  | .obj fs => '{' :: (serFields fs ++ ['}'])
/-- Comma-joined serialization of array elements. -/
def serList : JsonList → JStr
  | .nil => []
  | .cons h .nil => serJson h
  | .cons h (.cons h' t) => serJson h ++ ',' :: serList (.cons h' t)
/-- Comma-joined serialization of object members. -/
def serFields : JsonFields → JStr
  | .nil => []
  | .cons k v .nil => litStr k ++ ':' :: serJson v
  | .cons k v (.cons k' v' t) => litStr k ++ ':' :: serJson v ++ ',' :: serFields (.cons k' v' t)
end

/-- A frame-shaped JSON value: serialized form begins with `{` or `[`, which
is what the decoder's candidate search keys on. -/
def Json.isContainer : Json → Prop
  | .arr _ => True
  | .obj _ => True
  | _ => False

instance (v : Json) : Decidable v.isContainer := by
  unfold Json.isContainer
  cases v <;> infer_instance

/-! ## Scanner neutrality on serialized JSON -/

/-- A segment is neutral at a state when scanning it changes nothing and never
returns the depth to zero. -/
def NeutralAt (st : ScanSt) (cs : JStr) : Prop :=
  scanAll st cs = st ∧ scanFirst st cs = none

theorem NeutralAt.nil (st : ScanSt) : NeutralAt st [] :=
  ⟨rfl, rfl⟩

theorem NeutralAt.app {st : ScanSt} {xs ys : JStr}
    (hx : NeutralAt st xs) (hy : NeutralAt st ys) : NeutralAt st (xs ++ ys) := by
  refine ⟨?_, ?_⟩
  · rw [scanAll_append, hx.1, hy.1]
  · rw [scanFirst_append_of_none hx.2, hx.1, hy.2]
    rfl

/-- Characters with no significance to the scanner in any state. -/
def PlainChar (c : Char) : Prop :=
  c ≠ '\\' ∧ c ≠ '"' ∧ c ≠ '{' ∧ c ≠ '[' ∧ c ≠ '}' ∧ c ≠ ']'

instance (c : Char) : Decidable (PlainChar c) := by
  unfold PlainChar
  infer_instance

theorem scanStep_plain {st : ScanSt} {c : Char}
    (hp : PlainChar c) (he : st.escaped = false) : scanStep st c = some st := by
  obtain ⟨h1, h2, h3, h4, h5, h6⟩ := hp
  cases hst : st.inString <;>
    simp [scanStep, he, hst, h1, h2, h3, h4, h5, h6]

theorem NeutralAt.plainSeg {st : ScanSt} {cs : JStr}
    (hp : ∀ c ∈ cs, PlainChar c) (he : st.escaped = false) : NeutralAt st cs := by
  induction cs with
  | nil => exact NeutralAt.nil st
  | cons c cs ih =>
    have hc := hp c (by simp)
    have hstep := scanStep_plain hc he
    have hrest := ih (fun x hx => hp x (by simp [hx]))
    refine ⟨?_, ?_⟩
    · simp [scanAll, scanNext, hstep, hrest.1]
    · simp [scanFirst, hstep, hrest.2]

/-- Scanning the escaped body of a string literal from an in-string state
changes nothing and never closes the candidate. -/
theorem neutral_escStr (d : Int) (s : JStr) :
    NeutralAt ⟨d, true, false⟩ (escStr s) := by
  induction s with
  | nil => exact NeutralAt.nil _
  | cons c cs ih =>
    have hstep : NeutralAt (⟨d, true, false⟩ : ScanSt) (escChar c) := by
      by_cases h1 : c = '"' ∨ c = '\\'
      · refine ⟨?_, ?_⟩ <;>
          simp [escChar, h1, scanAll, scanNext, scanStep, scanFirst]
      · by_cases h2 : c = '\n'
        · refine ⟨?_, ?_⟩ <;>
            simp [escChar, h1, h2, scanAll, scanNext, scanStep, scanFirst]
        · push_neg at h1
          refine ⟨?_, ?_⟩ <;>
            simp [escChar, h1.1, h1.2, h2, scanAll, scanNext, scanStep, scanFirst,
              h1.2, if_neg]
    have : escStr (c :: cs) = escChar c ++ escStr cs := by
      simp [escStr]
    rw [this]
    exact hstep.app ih

/-- Scanning a whole string literal from a not-in-string state is neutral, at
every depth. -/
theorem neutral_litStr (d : Int) (s : JStr) :
    NeutralAt ⟨d, false, false⟩ (litStr s) := by
  have hq : scanStep ⟨d, false, false⟩ '"' = some ⟨d, true, false⟩ := by
    simp [scanStep]
  have hq2 : scanStep ⟨d, true, false⟩ '"' = some ⟨d, false, false⟩ := by
    simp [scanStep]
  have hbody := neutral_escStr d s
  refine ⟨?_, ?_⟩
  · show scanAll _ ('"' :: (escStr s ++ ['"'])) = _
    rw [scanAll, scanNext, hq, scanAll_append, hbody.1]
    simp [scanAll, scanNext, hq2]
  · show scanFirst _ ('"' :: (escStr s ++ ['"'])) = none
    simp only [scanFirst, hq]
    rw [scanFirst_append_of_none hbody.2, hbody.1]
    simp [scanFirst, hq2]

theorem plain_digitChar (n : Nat) : PlainChar (digitChar n) := by
  match n with
  | 0 | 1 | 2 | 3 | 4 | 5 | 6 | 7 | 8 => decide
  | n + 9 =>
    have h : digitChar (n + 9) = '9' := rfl
    rw [h]
    decide

theorem plain_natChars (n : Nat) : ∀ c ∈ natChars n, PlainChar c := by
  induction n using Nat.strong_induction_on with
  | _ n ih =>
    intro c hc
    rw [natChars] at hc
    by_cases h : n < 10
    · simp [h] at hc
      exact hc ▸ plain_digitChar n
    · simp [h] at hc
      rcases hc with hc | hc
      · exact ih (n / 10) (Nat.div_lt_self (by omega) (by omega)) c hc
      · exact hc ▸ plain_digitChar (n % 10)

theorem neutral_container {body : JStr} {d : Int} (hd : 1 ≤ d)
    (hbody : NeutralAt ⟨d + 1, false, false⟩ body)
    {oB cB : Char} (hoB : oB = '{' ∨ oB = '[') (hcB : cB = '}' ∨ cB = ']') :
    NeutralAt ⟨d, false, false⟩ (oB :: (body ++ [cB])) := by
  have hopen : scanStep ⟨d, false, false⟩ oB = some ⟨d + 1, false, false⟩ := by
    rcases hoB with rfl | rfl <;> simp [scanStep]
  have hclose : scanStep ⟨d + 1, false, false⟩ cB = some ⟨d, false, false⟩ := by
    have hnz : ¬(d + 1 - 1 = 0) := by omega
    have hnz' : ¬(d = 0) := by omega
    rcases hcB with rfl | rfl <;> simp [scanStep, hnz, hnz']
  refine ⟨?_, ?_⟩
  · rw [scanAll]
    have : scanNext ⟨d, false, false⟩ oB = ⟨d + 1, false, false⟩ := by
      simp [scanNext, hopen]
    rw [this, scanAll_append, hbody.1]
    simp [scanAll, scanNext, hclose]
  · simp only [scanFirst, hopen]
    rw [scanFirst_append_of_none hbody.2, hbody.1]
    simp [scanFirst, hclose]

mutual
theorem neutral_serJson (v : Json) (d : Int) (hd : 1 ≤ d) :
    NeutralAt ⟨d, false, false⟩ (serJson v) := by
  cases v with
  | null => exact NeutralAt.plainSeg (by decide) rfl
  | bool b =>
    cases b with
    | true => exact NeutralAt.plainSeg (by decide) rfl
    | false => exact NeutralAt.plainSeg (by decide) rfl
  | num n => exact NeutralAt.plainSeg (fun c hc => plain_natChars n c hc) rfl
  | str s => exact neutral_litStr d s
  | arr es =>
    exact neutral_container hd (neutral_serList es (d + 1) (by omega))
      (Or.inr rfl) (Or.inr rfl)
  | obj fs =>
    exact neutral_container hd (neutral_serFields fs (d + 1) (by omega))
      (Or.inl rfl) (Or.inl rfl)

theorem neutral_serList (es : JsonList) (d : Int) (hd : 1 ≤ d) :
    NeutralAt ⟨d, false, false⟩ (serList es) := by
  cases es with
  | nil => exact NeutralAt.nil _
  | cons h t =>
    cases t with
    | nil => exact neutral_serJson h d hd
    | cons h' t' =>
      have hh := neutral_serJson h d hd
      have hcomma : NeutralAt (⟨d, false, false⟩ : ScanSt) [','] :=
        NeutralAt.plainSeg (by decide) rfl
      have ht := neutral_serList (.cons h' t') d hd
      have : serJson h ++ ',' :: serList (.cons h' t')
          = serJson h ++ ([','] ++ serList (.cons h' t')) := by simp
      rw [serList, this]
      exact hh.app (hcomma.app ht)

theorem neutral_serFields (fs : JsonFields) (d : Int) (hd : 1 ≤ d) :
    NeutralAt ⟨d, false, false⟩ (serFields fs) := by
  cases fs with
  | nil => exact NeutralAt.nil _
  | cons k v t =>
    have hk := neutral_litStr d k
    have hcolon : NeutralAt (⟨d, false, false⟩ : ScanSt) [':'] :=
      NeutralAt.plainSeg (by decide) rfl
    have hv := neutral_serJson v d hd
    cases t with
    | nil =>
      have : litStr k ++ ':' :: serJson v = litStr k ++ ([':'] ++ serJson v) := by simp
      rw [serFields, this]
      exact hk.app (hcolon.app hv)
    | cons k' v' t' =>
      have hcomma : NeutralAt (⟨d, false, false⟩ : ScanSt) [','] :=
        NeutralAt.plainSeg (by decide) rfl
      have ht := neutral_serFields (.cons k' v' t') d hd
      have : litStr k ++ ':' :: serJson v ++ ',' :: serFields (.cons k' v' t')
          = litStr k ++ ([':'] ++ (serJson v ++ ([','] ++ serFields (.cons k' v' t')))) := by
        simp
      rw [serFields, this]
      exact hk.app (hcolon.app (hv.app (hcomma.app ht)))
end

/-- Scanning a serialized container frame from the initial state stops exactly
at the end of the frame, regardless of what follows in the buffer. -/
theorem scanFirst_top {body : JStr}
    (hbody : NeutralAt ⟨1, false, false⟩ body)
    {oB cB : Char} (hoB : oB = '{' ∨ oB = '[') (hcB : cB = '}' ∨ cB = ']')
    (rest : JStr) :
    scanFirst scanInit ((oB :: (body ++ [cB])) ++ rest) = some (body.length + 2) := by
  have hopen : scanStep scanInit oB = some ⟨1, false, false⟩ := by
    rcases hoB with rfl | rfl <;> simp [scanStep, scanInit]
  have hclose : scanStep ⟨1, false, false⟩ cB = none := by
    rcases hcB with rfl | rfl <;> simp [scanStep]
  have hassoc : (oB :: (body ++ [cB])) ++ rest = oB :: (body ++ ([cB] ++ rest)) := by
    simp
  rw [hassoc]
  simp only [scanFirst, hopen]
  rw [scanFirst_append_of_none hbody.2, hbody.1]
  simp [scanFirst, hclose]
  omega

theorem serJson_top (v : Json) (hv : v.isContainer) (rest : JStr) :
    scanFirst scanInit (serJson v ++ rest) = some (serJson v).length := by
  cases v with
  | arr es =>
    have h := scanFirst_top (neutral_serList es 1 le_rfl)
      (Or.inr rfl) (Or.inr rfl) rest
    rw [serJson]
    rw [show ('[' :: (serList es ++ [']'])).length = (serList es).length + 2 by simp]
    exact h
  | obj fs =>
    have h := scanFirst_top (neutral_serFields fs 1 le_rfl)
      (Or.inl rfl) (Or.inl rfl) rest
    rw [serJson]
    rw [show ('{' :: (serFields fs ++ ['}'])).length = (serFields fs).length + 2 by simp]
    exact h
  | null => exact absurd hv (by simp [Json.isContainer])
  | bool b => exact absurd hv (by simp [Json.isContainer])
  | num n => exact absurd hv (by simp [Json.isContainer])
  | str s => exact absurd hv (by simp [Json.isContainer])

/-! ## The `onData` buffer parser of `receiveMessages`

`receiveMessages` (subprocess-cli.ts, second revision, the large-response
parser) appends each stdout chunk to a string buffer and repeatedly extracts
the first balanced candidate frame: `jsonStart` is the smaller of
`buffer.indexOf('{')` and `buffer.indexOf('[')`; the scanner above finds
`jsonEnd`; the candidate is `JSON.parse`d (oracle `ok`), pushed on success,
recorded as a fatal `CLIJSONDecodeError` if it fails while still looking like
JSON, and skipped otherwise.  The stdin-closing side effect on `result` frames
touches only process state and is not part of this frame-level model. -/

/-- JS `String.indexOf` for a single character. -/
def indexOfChar (t : Char) : JStr → Option Nat
  | [] => none
  | c :: cs => if c = t then some 0 else (indexOfChar t cs).map (· + 1)

/-- The source's `jsonStart` computation: combine `indexOf('{')` and
`indexOf('[')`, taking the smaller position when both occur. -/
def jsonStartIdx (s : JStr) : Option Nat :=
  match indexOfChar '{' s, indexOfChar '[' s with
  | some a, some b => some (min a b)
  | some a, none => some a
  | none, some b => some b
  | none, none => none

/-- A character opening a JSON candidate. -/
def isBrace (c : Char) : Prop := c = '{' ∨ c = '['

instance (c : Char) : Decidable (isBrace c) := by
  unfold isBrace
  infer_instance

theorem jsonStartIdx_nil : jsonStartIdx [] = none := rfl

theorem jsonStartIdx_cons (c : Char) (cs : JStr) :
    jsonStartIdx (c :: cs) =
      if isBrace c then some 0 else (jsonStartIdx cs).map (· + 1) := by
  by_cases h1 : c = '{'
  · subst h1
    simp only [jsonStartIdx, indexOfChar, if_pos rfl, if_neg (by decide : ¬('{' = '['))]
    cases indexOfChar '[' cs with
    | none => simp [isBrace]
    | some b => simp [isBrace]
  · by_cases h2 : c = '['
    · subst h2
      simp only [jsonStartIdx, indexOfChar, if_neg (by decide : ¬('[' = '{')), if_pos rfl]
      cases indexOfChar '{' cs with
      | none => simp [isBrace]
      | some a => simp [isBrace]
    · simp only [jsonStartIdx, indexOfChar, if_neg h1, if_neg h2]
      have hb : ¬ isBrace c := by simp [isBrace, h1, h2]
      cases ha : indexOfChar '{' cs <;> cases hbr : indexOfChar '[' cs <;>
        simp [hb, jsonStartIdx, ha, hbr]
      omega

/-- Noise that never begins a candidate: no `{` and no `[`. -/
def BraceFree (cs : JStr) : Prop := ∀ c ∈ cs, ¬ isBrace c

instance (cs : JStr) : Decidable (BraceFree cs) := by
  unfold BraceFree
  infer_instance

theorem jsonStartIdx_of_braceFree {s : JStr} (h : BraceFree s) :
    jsonStartIdx s = none := by
  induction s with
  | nil => rfl
  | cons c cs ih =>
    rw [jsonStartIdx_cons, if_neg (h c (by simp))]
    rw [ih (fun x hx => h x (by simp [hx]))]
    rfl

theorem jsonStartIdx_append_braceFree {xs : JStr} (h : BraceFree xs) (ys : JStr) :
    jsonStartIdx (xs ++ ys) = (jsonStartIdx ys).map (· + xs.length) := by
  induction xs with
  | nil => cases hys : jsonStartIdx ys <;> simp [hys]
  | cons c cs ih =>
    rw [List.cons_append, jsonStartIdx_cons, if_neg (h c (by simp))]
    rw [ih (fun x hx => h x (by simp [hx]))]
    cases jsonStartIdx ys with
    | none => rfl
    | some k => simp; omega

theorem jsonStartIdx_first {xs : JStr} (h : BraceFree xs) {c : Char}
    (hc : isBrace c) (ys : JStr) :
    jsonStartIdx (xs ++ c :: ys) = some xs.length := by
  rw [jsonStartIdx_append_braceFree h, jsonStartIdx_cons, if_pos hc]
  simp

theorem jsonStartIdx_spec {s : JStr} {i : Nat} (h : jsonStartIdx s = some i) :
    i < s.length ∧ BraceFree (s.take i) ∧
      ∃ c cs', s.drop i = c :: cs' ∧ isBrace c := by
  induction s generalizing i with
  | nil => simp [jsonStartIdx_nil] at h
  | cons c cs ih =>
    rw [jsonStartIdx_cons] at h
    by_cases hc : isBrace c
    · rw [if_pos hc] at h
      cases h
      refine ⟨by simp, by simp [BraceFree], c, cs, by simp, hc⟩
    · rw [if_neg hc, Option.map_eq_some'] at h
      obtain ⟨j, hj, rfl⟩ := h
      obtain ⟨h1, h2, d, ds, h3, h4⟩ := ih hj
      refine ⟨by simp; omega, ?_, d, ds, by simpa using h3, h4⟩
      intro x hx
      simp [List.take_succ_cons] at hx
      rcases hx with rfl | hx
      · exact hc
      · exact h2 x hx

theorem jsonStartIdx_ne_nil {s : JStr} {i : Nat} (h : jsonStartIdx s = some i) :
    s ≠ [] := by
  intro hs
  subst hs
  simp [jsonStartIdx_nil] at h

/-- Whitespace as removed by JS `String.trim` (the characters relevant to this
stream). -/
def WsChar (c : Char) : Prop := c = ' ' ∨ c = '\t' ∨ c = '\n' ∨ c = '\r'

instance (c : Char) : Decidable (WsChar c) := by
  unfold WsChar
  infer_instance

/-- JS `String.trim`. -/
def jsTrim (s : JStr) : JStr :=
  ((s.dropWhile (fun c => decide (WsChar c))).reverse.dropWhile
    (fun c => decide (WsChar c))).reverse

/-- The source's `jsonStr.trim().startsWith('{') || ...startsWith('[')`
check guarding the fatal-decode-error branch. -/
def looksLikeJson (s : JStr) : Bool :=
  match jsTrim s with
  | [] => false
  | c :: _ => decide (isBrace c)

/-- Result of running the extraction loop on a buffer: the frames pushed onto
`messages`, the remaining buffer, and the `parseError` if one was recorded. -/
structure BufOut where
  frames : List JStr
  rest : JStr
  error : Option JStr
deriving DecidableEq

/-- The source's `while (startIndex < buffer.length)` extraction loop, run to
completion on one buffer.  `ok` abstracts `JSON.parse` success. -/
def processBuffer (ok : JStr → Bool) (buffer : JStr) : BufOut :=
  match h : jsonStartIdx buffer with
  | none => ⟨[], buffer, none⟩
  | some i =>
    match h2 : scanFirst scanInit (buffer.drop i) with
    | none => ⟨[], buffer, none⟩
    | some n =>
      let frame := (buffer.drop i).take n
      if ok frame then
        let out := processBuffer ok (buffer.drop (i + n))
        ⟨frame :: out.frames, out.rest, out.error⟩
      else if looksLikeJson frame then
        ⟨[], buffer, some frame⟩
      else
        processBuffer ok (buffer.drop (i + n))
termination_by buffer.length
decreasing_by
  all_goals
    have hn := scanFirst_pos h2
    have hne := jsonStartIdx_ne_nil h
    have hpos : 0 < buffer.length := List.length_pos.mpr hne
    simp only [List.length_drop]
    omega

theorem processBuffer_noStart {ok : JStr → Bool} {buffer : JStr}
    (hk : jsonStartIdx buffer = none) :
    processBuffer ok buffer = ⟨[], buffer, none⟩ := by
  unfold processBuffer
  split
  · rfl
  · rename_i i heq
    rw [hk] at heq
    cases heq

theorem processBuffer_incomplete {ok : JStr → Bool} {buffer : JStr} {i : Nat}
    (hk : jsonStartIdx buffer = some i)
    (h2 : scanFirst scanInit (buffer.drop i) = none) :
    processBuffer ok buffer = ⟨[], buffer, none⟩ := by
  unfold processBuffer
  split
  · rfl
  · rename_i j heq
    rw [hk] at heq
    cases heq
    split
    · rfl
    · rename_i n heq2
      rw [h2] at heq2
      cases heq2

theorem processBuffer_okFrame {ok : JStr → Bool} {buffer : JStr} {i n : Nat}
    (hk : jsonStartIdx buffer = some i)
    (h2 : scanFirst scanInit (buffer.drop i) = some n)
    (hok : ok ((buffer.drop i).take n) = true) :
    processBuffer ok buffer =
      ⟨(buffer.drop i).take n :: (processBuffer ok (buffer.drop (i + n))).frames,
        (processBuffer ok (buffer.drop (i + n))).rest,
        (processBuffer ok (buffer.drop (i + n))).error⟩ := by
  conv_lhs => unfold processBuffer
  split
  · rename_i heq
    rw [hk] at heq
    cases heq
  · rename_i j heq
    rw [hk] at heq
    cases heq
    split
    · rename_i heq2
      rw [h2] at heq2
      cases heq2
    · rename_i m heq2
      rw [h2] at heq2
      cases heq2
      rw [if_pos hok]

theorem processBuffer_errFrame {ok : JStr → Bool} {buffer : JStr} {i n : Nat}
    (hk : jsonStartIdx buffer = some i)
    (h2 : scanFirst scanInit (buffer.drop i) = some n)
    (hok : ok ((buffer.drop i).take n) = false)
    (hlook : looksLikeJson ((buffer.drop i).take n) = true) :
    processBuffer ok buffer = ⟨[], buffer, some ((buffer.drop i).take n)⟩ := by
  conv_lhs => unfold processBuffer
  split
  · rename_i heq
    rw [hk] at heq
    cases heq
  · rename_i j heq
    rw [hk] at heq
    cases heq
    split
    · rename_i heq2
      rw [h2] at heq2
      cases heq2
    · rename_i m heq2
      rw [h2] at heq2
      cases heq2
      rw [if_neg (by simp [hok]), if_pos hlook]

theorem processBuffer_skipFrame {ok : JStr → Bool} {buffer : JStr} {i n : Nat}
    (hk : jsonStartIdx buffer = some i)
    (h2 : scanFirst scanInit (buffer.drop i) = some n)
    (hok : ok ((buffer.drop i).take n) = false)
    (hlook : looksLikeJson ((buffer.drop i).take n) = false) :
    processBuffer ok buffer = processBuffer ok (buffer.drop (i + n)) := by
  conv_lhs => unfold processBuffer
  split
  · rename_i heq
    rw [hk] at heq
    cases heq
  · rename_i j heq
    rw [hk] at heq
    cases heq
    split
    · rename_i heq2
      rw [h2] at heq2
      cases heq2
    · rename_i m heq2
      rw [h2] at heq2
      cases heq2
      rw [if_neg (by simp [hok]), if_neg (by simp [hlook])]

theorem BufOut.eta (o : BufOut) : (⟨o.frames, o.rest, o.error⟩ : BufOut) = o := rfl

/-- A candidate found in a buffer is found unchanged after more data is
appended: same start, same end, same span. -/
theorem candidate_append {b : JStr} {i n : Nat} (c : JStr)
    (hk : jsonStartIdx b = some i)
    (h2 : scanFirst scanInit (b.drop i) = some n) :
    jsonStartIdx (b ++ c) = some i ∧
    scanFirst scanInit ((b ++ c).drop i) = some n ∧
    ((b ++ c).drop i).take n = (b.drop i).take n ∧
    (b ++ c).drop (i + n) = b.drop (i + n) ++ c := by
  obtain ⟨hilen, hfree, br, tl, hdropEq, hbr⟩ := jsonStartIdx_spec hk
  have hile : i ≤ b.length := le_of_lt hilen
  have hnle : n ≤ (b.drop i).length := scanFirst_le h2
  have hinle : i + n ≤ b.length := by
    simp only [List.length_drop] at hnle
    omega
  have hdropApp : (b ++ c).drop i = b.drop i ++ c := by
    rw [List.drop_append_eq_append_drop]
    rw [show i - b.length = 0 by omega, List.drop_zero]
  have hdropApp2 : (b ++ c).drop (i + n) = b.drop (i + n) ++ c := by
    rw [List.drop_append_eq_append_drop]
    rw [show i + n - b.length = 0 by omega, List.drop_zero]
  refine ⟨?_, ?_, ?_, hdropApp2⟩
  · have hb : b = b.take i ++ (br :: tl) := by
      rw [← hdropEq, List.take_append_drop]
    have hlen : (b.take i).length = i := by
      simp [List.length_take]
      omega
    calc jsonStartIdx (b ++ c)
        = jsonStartIdx (b.take i ++ (br :: (tl ++ c))) := by
          rw [show b.take i ++ (br :: (tl ++ c)) = (b.take i ++ (br :: tl)) ++ c by simp, ← hb]
      _ = some (b.take i).length := jsonStartIdx_first hfree hbr _
      _ = some i := by rw [hlen]
  · rw [hdropApp]
    exact scanFirst_append_of_some h2 c
  · rw [hdropApp, List.take_append_eq_append_take]
    rw [show n - (b.drop i).length = 0 by omega, List.take_zero, List.append_nil]

/-- How one extraction pass extends when more data arrives: frames already
extracted stay extracted, and the continuation runs on the retained rest plus
the new data; a recorded error is final. -/
def mergeChunk (ok : JStr → Bool) (o : BufOut) (c : JStr) : BufOut :=
  match o.error with
  | none =>
    ⟨o.frames ++ (processBuffer ok (o.rest ++ c)).frames,
     (processBuffer ok (o.rest ++ c)).rest,
     (processBuffer ok (o.rest ++ c)).error⟩
  | some f => ⟨o.frames, o.rest ++ c, some f⟩

theorem processBuffer_append (ok : JStr → Bool) (b c : JStr) :
    processBuffer ok (b ++ c) = mergeChunk ok (processBuffer ok b) c := by
  suffices H : ∀ (L : Nat) (b c : JStr), b.length ≤ L →
      processBuffer ok (b ++ c) = mergeChunk ok (processBuffer ok b) c by
    exact H b.length b c le_rfl
  intro L
  induction L with
  | zero =>
    intro b c hb
    have hbn : b = [] := List.length_eq_zero.mp (by omega)
    subst hbn
    rw [processBuffer_noStart (jsonStartIdx_nil)]
    simp [mergeChunk, BufOut.eta]
  | succ L ihL =>
    intro b c hb
    cases hk : jsonStartIdx b with
    | none =>
      rw [processBuffer_noStart hk]
      simp [mergeChunk, BufOut.eta]
    | some i =>
      cases h2 : scanFirst scanInit (b.drop i) with
      | none =>
        rw [processBuffer_incomplete hk h2]
        simp [mergeChunk, BufOut.eta]
      | some n =>
        obtain ⟨hk', h2', hframe', hdrop'⟩ := candidate_append c hk h2
        have hlrec : (b.drop (i + n)).length ≤ L := by
          have hn := scanFirst_pos h2
          have hnle := scanFirst_le h2
          simp only [List.length_drop] at hnle ⊢
          omega
        cases hok : ok ((b.drop i).take n) with
        | true =>
          rw [processBuffer_okFrame hk h2 hok,
            processBuffer_okFrame hk' h2' (by rw [hframe']; exact hok)]
          rw [hframe', hdrop', ihL (b.drop (i + n)) c hlrec]
          cases herr : (processBuffer ok (b.drop (i + n))).error with
          | none => simp [mergeChunk, herr]
          | some f => simp [mergeChunk, herr]
        | false =>
          cases hlook : looksLikeJson ((b.drop i).take n) with
          | true =>
            rw [processBuffer_errFrame hk h2 hok hlook,
              processBuffer_errFrame hk' h2' (by rw [hframe']; exact hok)
                (by rw [hframe']; exact hlook)]
            simp [mergeChunk, hframe']
          | false =>
            rw [processBuffer_skipFrame hk h2 hok hlook,
              processBuffer_skipFrame hk' h2' (by rw [hframe']; exact hok)
                (by rw [hframe']; exact hlook)]
            rw [hdrop']
            exact ihL (b.drop (i + n)) c hlrec

/-- A buffer the extraction loop leaves untouched. -/
def Quiescent (ok : JStr → Bool) (b : JStr) : Prop :=
  processBuffer ok b = ⟨[], b, none⟩

/-- A buffer whose first candidate is a balanced span failing `JSON.parse`:
the state the loop keeps returning to once a `parseError` is recorded. -/
def ErrState (ok : JStr → Bool) (b f : JStr) : Prop :=
  ∃ i n, jsonStartIdx b = some i ∧ scanFirst scanInit (b.drop i) = some n ∧
    (b.drop i).take n = f ∧ ok f = false ∧ looksLikeJson f = true

theorem ErrState.extend {ok : JStr → Bool} {b f : JStr} (h : ErrState ok b f)
    (c : JStr) : ErrState ok (b ++ c) f := by
  obtain ⟨i, n, hk, h2, hframe, hok, hlook⟩ := h
  obtain ⟨hk', h2', hframe', -⟩ := candidate_append c hk h2
  exact ⟨i, n, hk', h2', by rw [hframe', hframe], hok, hlook⟩

theorem ErrState.processBuffer_eq {ok : JStr → Bool} {b f : JStr}
    (h : ErrState ok b f) : processBuffer ok b = ⟨[], b, some f⟩ := by
  obtain ⟨i, n, hk, h2, hframe, hok, hlook⟩ := h
  rw [processBuffer_errFrame hk h2 (by rw [hframe]; exact hok)
    (by rw [hframe]; exact hlook), hframe]

/-- The retained rest of an error-free pass is quiescent, and an error pass
leaves the buffer in `ErrState`. -/
theorem processBuffer_post (ok : JStr → Bool) (b : JStr) :
    ((processBuffer ok b).error = none → Quiescent ok (processBuffer ok b).rest) ∧
    (∀ f, (processBuffer ok b).error = some f → ErrState ok (processBuffer ok b).rest f) := by
  suffices H : ∀ (L : Nat) (b : JStr), b.length ≤ L →
      ((processBuffer ok b).error = none → Quiescent ok (processBuffer ok b).rest) ∧
      (∀ f, (processBuffer ok b).error = some f →
        ErrState ok (processBuffer ok b).rest f) by
    exact H b.length b le_rfl
  intro L
  induction L with
  | zero =>
    intro b hb
    have hbn : b = [] := List.length_eq_zero.mp (by omega)
    subst hbn
    rw [processBuffer_noStart (jsonStartIdx_nil)]
    exact ⟨fun _ => processBuffer_noStart (jsonStartIdx_nil), fun f hf => by cases hf⟩
  | succ L ihL =>
    intro b hb
    cases hk : jsonStartIdx b with
    | none =>
      rw [processBuffer_noStart hk]
      exact ⟨fun _ => processBuffer_noStart hk, fun f hf => by cases hf⟩
    | some i =>
      cases h2 : scanFirst scanInit (b.drop i) with
      | none =>
        rw [processBuffer_incomplete hk h2]
        exact ⟨fun _ => processBuffer_incomplete hk h2, fun f hf => by cases hf⟩
      | some n =>
        have hlrec : (b.drop (i + n)).length ≤ L := by
          have hn := scanFirst_pos h2
          have hnle := scanFirst_le h2
          have := jsonStartIdx_spec hk
          simp only [List.length_drop] at hnle ⊢
          omega
        cases hok : ok ((b.drop i).take n) with
        | true =>
          rw [processBuffer_okFrame hk h2 hok]
          exact ihL (b.drop (i + n)) hlrec
        | false =>
          cases hlook : looksLikeJson ((b.drop i).take n) with
          | true =>
            rw [processBuffer_errFrame hk h2 hok hlook]
            constructor
            · intro hf
              exact absurd hf (by simp)
            · intro f hf
              have hf' : some ((b.drop i).take n) = some f := hf
              cases hf'
              exact ⟨i, n, hk, h2, rfl, hok, hlook⟩
          | false =>
            rw [processBuffer_skipFrame hk h2 hok hlook]
            exact ihL (b.drop (i + n)) hlrec

/-! ## Chunk-by-chunk decoding

Each `data` event appends its chunk to the persistent buffer and runs the
extraction loop; successfully parsed frames are pushed onto the `messages`
array, and a parse failure records `parseError`, after which the generator
yields no further frame.  `frames` below is the `messages` array; `error` is
the recorded `parseError` (a fresh error on a later pass overwrites it, which
by `ErrState.processBuffer_eq` is always the same offending text). -/

structure DecSt where
  buffer : JStr
  frames : List JStr
  error : Option JStr
deriving DecidableEq

/-- The `onData` handler: append the chunk, run the extraction loop. -/
def feedChunk (ok : JStr → Bool) (st : DecSt) (c : JStr) : DecSt :=
  let o := processBuffer ok (st.buffer ++ c)
  ⟨o.rest, st.frames ++ o.frames, o.error.orElse (fun _ => st.error)⟩

/-- Initial decoder state: empty buffer, no messages, no error. -/
def decInit : DecSt := ⟨[], [], none⟩

/-- The decoder run over a whole sequence of stdout chunks. -/
def decodeChunks (ok : JStr → Bool) (chunks : List JStr) : DecSt :=
  chunks.foldl (feedChunk ok) decInit

theorem decodeFold_err {ok : JStr → Bool} {f : JStr} :
    ∀ (chunks : List JStr) (st : DecSt), st.error = some f →
      ErrState ok st.buffer f →
      chunks.foldl (feedChunk ok) st =
        ⟨st.buffer ++ chunks.flatten, st.frames, some f⟩ := by
  intro chunks
  induction chunks with
  | nil =>
    intro st he hE
    simp only [List.foldl_nil, List.flatten_nil, List.append_nil]
    cases st with
    | mk b fs e => simp only at he; rw [he]
  | cons c cs ih =>
    intro st he hE
    have hfeed : feedChunk ok st c = ⟨st.buffer ++ c, st.frames, some f⟩ := by
      simp only [feedChunk, (hE.extend c).processBuffer_eq]
      simp [he]
    rw [List.foldl_cons, hfeed]
    rw [ih ⟨st.buffer ++ c, st.frames, some f⟩ rfl (hE.extend c)]
    simp [List.flatten_cons, List.append_assoc]

theorem decodeFold_ok {ok : JStr → Bool} :
    ∀ (chunks : List JStr) (st : DecSt), st.error = none →
      Quiescent ok st.buffer →
      chunks.foldl (feedChunk ok) st =
        ⟨(processBuffer ok (st.buffer ++ chunks.flatten)).rest,
         st.frames ++ (processBuffer ok (st.buffer ++ chunks.flatten)).frames,
         (processBuffer ok (st.buffer ++ chunks.flatten)).error⟩ := by
  intro chunks
  induction chunks with
  | nil =>
    intro st he hQ
    simp only [List.foldl_nil, List.flatten_nil, List.append_nil]
    rw [hQ]
    cases st with
    | mk b fs e => simp only at he; rw [he]; simp
  | cons c cs ih =>
    intro st he hQ
    rw [List.foldl_cons]
    have hsplit : st.buffer ++ (c :: cs).flatten = (st.buffer ++ c) ++ cs.flatten := by
      simp [List.flatten_cons]
    rw [hsplit, processBuffer_append ok (st.buffer ++ c) cs.flatten]
    cases herr : (processBuffer ok (st.buffer ++ c)).error with
    | none =>
      have hfeed : feedChunk ok st c =
          ⟨(processBuffer ok (st.buffer ++ c)).rest,
           st.frames ++ (processBuffer ok (st.buffer ++ c)).frames, none⟩ := by
        simp [feedChunk, herr, he]
      rw [hfeed]
      have hQ' : Quiescent ok (processBuffer ok (st.buffer ++ c)).rest :=
        (processBuffer_post ok (st.buffer ++ c)).1 herr
      rw [ih _ rfl hQ']
      simp [mergeChunk, herr, List.append_assoc]
    | some f =>
      have hfeed : feedChunk ok st c =
          ⟨(processBuffer ok (st.buffer ++ c)).rest,
           st.frames ++ (processBuffer ok (st.buffer ++ c)).frames, some f⟩ := by
        simp [feedChunk, herr]
      rw [hfeed]
      have hE : ErrState ok (processBuffer ok (st.buffer ++ c)).rest f :=
        (processBuffer_post ok (st.buffer ++ c)).2 f herr
      rw [decodeFold_err cs _ rfl hE]
      simp [mergeChunk, herr]

/-- The chunked decoder equals one pass over the concatenated stream: chunk
boundaries are invisible. -/
theorem decodeChunks_flatten (ok : JStr → Bool) (chunks : List JStr) :
    decodeChunks ok chunks =
      ⟨(processBuffer ok chunks.flatten).rest,
       (processBuffer ok chunks.flatten).frames,
       (processBuffer ok chunks.flatten).error⟩ := by
  have hQ : Quiescent ok decInit.buffer := by
    show processBuffer ok [] = ⟨[], [], none⟩
    exact processBuffer_noStart jsonStartIdx_nil
  have h := decodeFold_ok chunks decInit rfl hQ
  simpa [decodeChunks, decInit] using h

theorem serJson_head {v : Json} (hv : v.isContainer) :
    ∃ c cs, serJson v = c :: cs ∧ isBrace c := by
  cases v with
  | arr es => exact ⟨'[', serList es ++ [']'], rfl, Or.inr rfl⟩
  | obj fs => exact ⟨'{', serFields fs ++ ['}'], rfl, Or.inl rfl⟩
  | null => exact absurd hv (by simp [Json.isContainer])
  | bool b => exact absurd hv (by simp [Json.isContainer])
  | num n => exact absurd hv (by simp [Json.isContainer])
  | str s => exact absurd hv (by simp [Json.isContainer])

theorem dropWhile_append_last (p : Char → Bool) (c : Char) (hc : p c = false) :
    ∀ xs : JStr, ∃ ys : JStr, List.dropWhile p (xs ++ [c]) = ys ++ [c] := by
  intro xs
  induction xs with
  | nil => exact ⟨[], by simp [List.dropWhile, hc]⟩
  | cons x xs ih =>
    by_cases hx : p x = true
    · obtain ⟨ys, hys⟩ := ih
      exact ⟨ys, by simp [List.dropWhile, hx, hys]⟩
    · exact ⟨x :: xs, by simp [List.dropWhile, hx]⟩

/-- `trim` keeps a leading non-whitespace character in place. -/
theorem jsTrim_cons {c : Char} (hc : ¬ WsChar c) (cs : JStr) :
    ∃ t, jsTrim (c :: cs) = c :: t := by
  have hcb : (decide (WsChar c)) = false := by simpa using hc
  have h1 : (c :: cs).dropWhile (fun x => decide (WsChar x)) = c :: cs := by
    simp [List.dropWhile, hcb]
  rw [jsTrim, h1]
  have h2 : (c :: cs).reverse = cs.reverse ++ [c] := by simp
  rw [h2]
  obtain ⟨ys, hys⟩ := dropWhile_append_last (fun x => decide (WsChar x)) c hcb cs.reverse
  rw [hys]
  exact ⟨ys.reverse, by simp⟩

theorem looksLikeJson_serJson {v : Json} (hv : v.isContainer) :
    looksLikeJson (serJson v) = true := by
  obtain ⟨c, cs, hser, hbr⟩ := serJson_head hv
  have hws : ¬ WsChar c := by
    rcases hbr with rfl | rfl <;> simp [WsChar]
  obtain ⟨t, ht⟩ := jsTrim_cons hws cs
  rw [hser, looksLikeJson, ht]
  simpa using hbr

/-- A well-formed stream: brace-free noise, then a frame, repeated, with
brace-free trailing noise. -/
def streamOf : List (JStr × JStr) → JStr → JStr
  | [], last => last
  | (sep, f) :: rest, last => sep ++ (f ++ streamOf rest last)

/-- One pass of the extraction loop over a well-formed stream of serialized
container frames that all parse: it recovers exactly the serialized frames,
in order, with no error, and retains the trailing noise. -/
theorem processBuffer_stream (ok : JStr → Bool) :
    ∀ (ps : List (JStr × Json)) (last : JStr),
      (∀ p ∈ ps, BraceFree p.1) → BraceFree last →
      (∀ p ∈ ps, (p.2).isContainer) →
      (∀ p ∈ ps, ok (serJson p.2) = true) →
      processBuffer ok (streamOf (ps.map (fun p => (p.1, serJson p.2))) last) =
        ⟨ps.map (fun p => serJson p.2), last, none⟩ := by
  intro ps
  induction ps with
  | nil =>
    intro last hsep hlast hcont hok
    exact processBuffer_noStart (jsonStartIdx_of_braceFree hlast)
  | cons p ps ih =>
    intro last hsep hlast hcont hok
    obtain ⟨sep, v⟩ := p
    have hvc : v.isContainer := hcont (sep, v) (by simp)
    have hsepf : BraceFree sep := hsep (sep, v) (by simp)
    have hokv : ok (serJson v) = true := hok (sep, v) (by simp)
    obtain ⟨c, cs, hser, hbr⟩ := serJson_head hvc
    set rest := streamOf (ps.map (fun p => (p.1, serJson p.2))) last with hrest
    have hbufEq : streamOf (((sep, v) :: ps).map (fun p => (p.1, serJson p.2))) last
        = sep ++ (serJson v ++ rest) := by
      simp [streamOf, hrest]
    rw [hbufEq]
    have hk : jsonStartIdx (sep ++ (serJson v ++ rest)) = some sep.length := by
      rw [hser, List.cons_append]
      exact jsonStartIdx_first hsepf hbr _
    have hdropSep : (sep ++ (serJson v ++ rest)).drop sep.length = serJson v ++ rest := by
      rw [List.drop_append_eq_append_drop]
      simp
    have h2 : scanFirst scanInit ((sep ++ (serJson v ++ rest)).drop sep.length)
        = some (serJson v).length := by
      rw [hdropSep]
      exact serJson_top v hvc rest
    have hframe : ((sep ++ (serJson v ++ rest)).drop sep.length).take (serJson v).length
        = serJson v := by
      rw [hdropSep, List.take_append_eq_append_take]
      simp
    have hdropAll : (sep ++ (serJson v ++ rest)).drop (sep.length + (serJson v).length)
        = rest := by
      rw [show sep ++ (serJson v ++ rest) = (sep ++ serJson v) ++ rest by simp]
      rw [List.drop_append_eq_append_drop]
      simp
    rw [processBuffer_okFrame hk h2 (by rw [hframe]; exact hokv)]
    rw [hframe, hdropAll]
    rw [ih last (fun q hq => hsep q (by simp [hq])) hlast
      (fun q hq => hcont q (by simp [hq])) (fun q hq => hok q (by simp [hq]))]
    simp

/-- Like `processBuffer_stream`, but the stream continues with a frame that
fails to parse: the loop stops there with the offending frame as the recorded
error, yielding exactly the earlier frames. -/
theorem processBuffer_stream_err (ok : JStr → Bool) :
    ∀ (ps : List (JStr × Json)) (sep : JStr) (bad : Json) (tail : JStr),
      (∀ p ∈ ps, BraceFree p.1) → BraceFree sep →
      (∀ p ∈ ps, (p.2).isContainer) → bad.isContainer →
      (∀ p ∈ ps, ok (serJson p.2) = true) → ok (serJson bad) = false →
      processBuffer ok
          (streamOf (ps.map (fun p => (p.1, serJson p.2))) (sep ++ (serJson bad ++ tail))) =
        ⟨ps.map (fun p => serJson p.2), sep ++ (serJson bad ++ tail), some (serJson bad)⟩ := by
  intro ps
  induction ps with
  | nil =>
    intro sep bad tail hsep hsepf hcont hbadc hok hbad
    obtain ⟨c, cs, hser, hbr⟩ := serJson_head hbadc
    have hk : jsonStartIdx (sep ++ (serJson bad ++ tail)) = some sep.length := by
      rw [hser, List.cons_append]
      exact jsonStartIdx_first hsepf hbr _
    have hdropSep : (sep ++ (serJson bad ++ tail)).drop sep.length
        = serJson bad ++ tail := by
      rw [List.drop_append_eq_append_drop]
      simp
    have h2 : scanFirst scanInit ((sep ++ (serJson bad ++ tail)).drop sep.length)
        = some (serJson bad).length := by
      rw [hdropSep]
      exact serJson_top bad hbadc tail
    have hframe : ((sep ++ (serJson bad ++ tail)).drop sep.length).take (serJson bad).length
        = serJson bad := by
      rw [hdropSep, List.take_append_eq_append_take]
      simp
    simp only [List.map_nil]
    rw [show streamOf ([] : List (JStr × JStr)) (sep ++ (serJson bad ++ tail))
      = sep ++ (serJson bad ++ tail) from rfl]
    rw [processBuffer_errFrame hk h2 (by rw [hframe]; exact hbad)
      (by rw [hframe]; exact looksLikeJson_serJson hbadc), hframe]
  | cons p ps ih =>
    intro sep bad tail hsep hsepf hcont hbadc hok hbad
    obtain ⟨psep, v⟩ := p
    have hvc : v.isContainer := hcont (psep, v) (by simp)
    have hpsepf : BraceFree psep := hsep (psep, v) (by simp)
    have hokv : ok (serJson v) = true := hok (psep, v) (by simp)
    obtain ⟨c, cs, hser, hbr⟩ := serJson_head hvc
    set rest := streamOf (ps.map (fun p => (p.1, serJson p.2)))
      (sep ++ (serJson bad ++ tail)) with hrest
    have hbufEq : streamOf (((psep, v) :: ps).map (fun p => (p.1, serJson p.2)))
        (sep ++ (serJson bad ++ tail)) = psep ++ (serJson v ++ rest) := by
      simp [streamOf, hrest]
    rw [hbufEq]
    have hk : jsonStartIdx (psep ++ (serJson v ++ rest)) = some psep.length := by
      rw [hser, List.cons_append]
      exact jsonStartIdx_first hpsepf hbr _
    have hdropSep : (psep ++ (serJson v ++ rest)).drop psep.length = serJson v ++ rest := by
      rw [List.drop_append_eq_append_drop]
      simp
    have h2 : scanFirst scanInit ((psep ++ (serJson v ++ rest)).drop psep.length)
        = some (serJson v).length := by
      rw [hdropSep]
      exact serJson_top v hvc rest
    have hframe : ((psep ++ (serJson v ++ rest)).drop psep.length).take (serJson v).length
        = serJson v := by
      rw [hdropSep, List.take_append_eq_append_take]
      simp
    have hdropAll : (psep ++ (serJson v ++ rest)).drop (psep.length + (serJson v).length)
        = rest := by
      rw [show psep ++ (serJson v ++ rest) = (psep ++ serJson v) ++ rest by simp]
      rw [List.drop_append_eq_append_drop]
      simp
    rw [processBuffer_okFrame hk h2 (by rw [hframe]; exact hokv)]
    rw [hframe, hdropAll]
    rw [ih sep bad tail (fun q hq => hsep q (by simp [hq])) hsepf
      (fun q hq => hcont q (by simp [hq])) hbadc
      (fun q hq => hok q (by simp [hq])) hbad]
    simp

theorem processBuffer_error_shape {ok : JStr → Bool} {b f : JStr}
    (h : (processBuffer ok b).error = some f) :
    (∃ c cs, f = c :: cs ∧ isBrace c) ∧ scanFirst scanInit f = some f.length ∧
      ok f = false ∧ looksLikeJson f = true := by
  obtain ⟨i, n, hk, h2, hframe, hok, hlook⟩ := (processBuffer_post ok b).2 f h
  obtain ⟨hilen, hfree, c, cs', hdropEq, hbr⟩ := jsonStartIdx_spec hk
  have hn := scanFirst_pos h2
  have hnle := scanFirst_le h2
  have hflen : f.length = n := by
    rw [← hframe]
    simp only [List.length_take]
    simp only [List.length_drop] at hnle ⊢
    omega
  refine ⟨?_, ?_, hok, hlook⟩
  · rw [← hframe, hdropEq]
    cases n with
    | zero => omega
    | succ m => exact ⟨c, cs'.take m, by simp [List.take_succ_cons], hbr⟩
  · rw [hflen, ← hframe]
    exact scanFirst_take h2

theorem braceFree_flatten {chunks : List JStr} (h : ∀ c ∈ chunks, BraceFree c) :
    BraceFree chunks.flatten := by
  intro x hx
  rw [List.mem_flatten] at hx
  obtain ⟨l, hl, hxl⟩ := hx
  exact h l hl x hxl

/-- Claim C2: for every sequence of stdout chunks whose concatenation is a
well-formed stream of N parseable JSON frames (container values, arbitrary
chunk boundaries, interleaved brace-free whitespace or noise), the decoder
loop of `receiveMessages` yields exactly those N frames, in arrival order,
each byte-identical (hence value-identical) to the original frame, with no
decode error. -/
theorem claim_C2 (ok : JStr → Bool) (ps : List (JStr × Json)) (last : JStr)
    (chunks : List JStr)
    (hsep : ∀ p ∈ ps, BraceFree p.1) (hlast : BraceFree last)
    (hcont : ∀ p ∈ ps, (p.2).isContainer)
    (hok : ∀ p ∈ ps, ok (serJson p.2) = true)
    (hchunks : chunks.flatten = streamOf (ps.map (fun p => (p.1, serJson p.2))) last) :
    (decodeChunks ok chunks).frames = ps.map (fun p => serJson p.2) ∧
      (decodeChunks ok chunks).error = none := by
  rw [decodeChunks_flatten, hchunks,
    processBuffer_stream ok ps last hsep hlast hcont hok]
  exact ⟨rfl, rfl⟩

/-- Concrete stream for the C2 witness: noise, an object frame split across
two chunks mid-frame, a second frame, trailing newline. -/
def c2Stream : JStr :=
  streamOf ([((' ' : Char) :: [], serJson (Json.obj (.cons ['a'] (Json.str ['b']) .nil))),
    ([], serJson (Json.arr .nil))]) ['\n']

theorem claim_C2_witness :
    BraceFree ['\n'] ∧
    ((decodeChunks (fun _ => true) [c2Stream.take 5, c2Stream.drop 5]).frames
        = [serJson (Json.obj (.cons ['a'] (Json.str ['b']) .nil)), serJson (Json.arr .nil)] ∧
      (decodeChunks (fun _ => true) [c2Stream.take 5, c2Stream.drop 5]).error = none) := by
  constructor
  · decide
  · exact claim_C2 (fun _ => true)
      [([' '], Json.obj (.cons ['a'] (Json.str ['b']) .nil)), ([], Json.arr .nil)]
      ['\n'] [c2Stream.take 5, c2Stream.drop 5]
      (by decide) (by decide) (by decide)
      (by intro p hp; rfl)
      (by simp [c2Stream])

/-- Claim C4: the decoder records a `CLIJSONDecodeError` carrying the
offending text exactly for a balanced candidate span beginning with `{` or
`[` that fails `JSON.parse`; brace-free input is silently dropped and never
surfaced as an error; and after a decode error no further frames are ever
produced from that stream. -/
theorem claim_C4 (ok : JStr → Bool) :
    (∀ (chunks : List JStr) (f : JStr), (decodeChunks ok chunks).error = some f →
      (∃ c cs, f = c :: cs ∧ isBrace c) ∧ scanFirst scanInit f = some f.length ∧
        ok f = false) ∧
    (∀ (ps : List (JStr × Json)) (sep : JStr) (bad : Json) (tail : JStr)
        (chunks : List JStr),
      (∀ p ∈ ps, BraceFree p.1) → BraceFree sep →
      (∀ p ∈ ps, (p.2).isContainer) → bad.isContainer →
      (∀ p ∈ ps, ok (serJson p.2) = true) → ok (serJson bad) = false →
      chunks.flatten =
        streamOf (ps.map (fun p => (p.1, serJson p.2))) (sep ++ (serJson bad ++ tail)) →
      (decodeChunks ok chunks).error = some (serJson bad) ∧
        (decodeChunks ok chunks).frames = ps.map (fun p => serJson p.2)) ∧
    (∀ chunks : List JStr, (∀ c ∈ chunks, BraceFree c) →
      (decodeChunks ok chunks).frames = [] ∧ (decodeChunks ok chunks).error = none) ∧
    (∀ (chunks more : List JStr) (f : JStr), (decodeChunks ok chunks).error = some f →
      (decodeChunks ok (chunks ++ more)).frames = (decodeChunks ok chunks).frames ∧
        (decodeChunks ok (chunks ++ more)).error = some f) := by
  refine ⟨?_, ?_, ?_, ?_⟩
  · intro chunks f h
    rw [decodeChunks_flatten] at h
    obtain ⟨hhead, hbal, hok, -⟩ := processBuffer_error_shape h
    exact ⟨hhead, hbal, hok⟩
  · intro ps sep bad tail chunks hsep hsepf hcont hbadc hok hbad hchunks
    rw [decodeChunks_flatten, hchunks,
      processBuffer_stream_err ok ps sep bad tail hsep hsepf hcont hbadc hok hbad]
    exact ⟨rfl, rfl⟩
  · intro chunks h
    rw [decodeChunks_flatten,
      processBuffer_noStart (jsonStartIdx_of_braceFree (braceFree_flatten h))]
    exact ⟨rfl, rfl⟩
  · intro chunks more f h
    have hE : ErrState ok (decodeChunks ok chunks).buffer f := by
      rw [decodeChunks_flatten] at h ⊢
      exact (processBuffer_post ok chunks.flatten).2 f h
    have hfold : decodeChunks ok (chunks ++ more)
        = more.foldl (feedChunk ok) (decodeChunks ok chunks) := by
      rw [decodeChunks, decodeChunks, List.foldl_append]
    rw [hfold, decodeFold_err more _ h hE]
    exact ⟨rfl, rfl⟩

theorem claim_C4_witness :
    ((fun _ => false : JStr → Bool) (serJson (Json.obj .nil)) = false) ∧
    ((decodeChunks (fun _ => false) [['x'], serJson (Json.obj .nil) ++ ['\n']]).error
        = some (serJson (Json.obj .nil)) ∧
      (decodeChunks (fun _ => false) [['x'], serJson (Json.obj .nil) ++ ['\n']]).frames
        = []) := by
  constructor
  · rfl
  · exact (claim_C4 (fun _ => false)).2.1 [] ['x'] (Json.obj .nil) ['\n']
      [['x'], serJson (Json.obj .nil) ++ ['\n']]
      (by decide) (by decide) (by decide) trivial
      (by decide) rfl
      (by simp [streamOf])

/-! ## Domain messages and the Conversation engine

Modelled from the `Conversation` class kept with the streaming-input tests
(the revision with keep-alive, process-complete handlers and the graceful
`end()` protocol): `normalizeUserContent`, `send`, `stream`, `getSessionId`,
`onSessionId`, `onProcessComplete`, `keepAlive`, `dispose`,
`updateSessionId`, `emitMessage`, and `SessionAwareParser.consume`.
JavaScript truthiness on optional strings (`if (message.session_id)`) is
`truthy` below: absent or empty means falsy. -/

/-- Content block of an assistant message (types.ts). -/
inductive Block where
  | text (text : String)
  | toolUse (id : String) (name : String)
  | toolResult (toolUseId : String)
  | other
deriving DecidableEq

/-- A routed domain message as the conversation engine sees it: its `type`
discriminator, its content blocks when the field is present (an absent
`content` is `none`; JS treats any present array, even empty, as truthy), and
its optional `session_id`. -/
structure Message where
  mtype : String
  content : Option (List Block)
  session_id : Option String
deriving DecidableEq

/-- JS truthiness of an optional string: absent and `""` are falsy. -/
def truthy : Option String → Bool
  | none => false
  | some s => s != ""

/-- An `InternalClient` as the conversation stores it: opening prompt,
streaming-mode flag, keep-alive flag, and whether `hasActiveTransport()`
currently reports an active process. -/
structure Client where
  prompt : String
  streamingMode : Bool
  keepAlive : Bool
  transportActive : Bool
deriving DecidableEq

/-- The `Conversation` instance state.  `sessionEvents` records, in order, the
values handed to the registered `sessionIdHandlers`; `streamEvents` records
the `(message, currentSessionId)` pairs fanned out to stream handlers. -/
structure Conversation where
  activeClient : Option Client
  currentSessionId : Option String
  disposed : Bool
  keepAliveFlag : Bool
  streamHandlers : Nat
  sessionIdHandlers : Nat
  processCompleteHandlers : Nat
  sessionEvents : List (Option String)
  streamEvents : List (Message × Option String)
deriving DecidableEq

/-- The disposed-conversation error message. -/
def disposedErr : String := "Conversation has been disposed"

/-- Constructor: seed session id from the builder options (`options.sessionId
|| null`), keep-alive flag from the builder. -/
def Conversation.mk0 (seedSessionId : Option String) (keepAlive : Bool) : Conversation :=
  ⟨none, if truthy seedSessionId then seedSessionId else none,
    false, keepAlive, 0, 0, 0, [], []⟩

/-- `updateSessionId`: value-equality guard, then store and notify every
session-id handler with the new value. -/
def Conversation.updateSessionId (st : Conversation) (newSessionId : Option String) :
    Conversation :=
  if st.currentSessionId ≠ newSessionId then
    { st with currentSessionId := newSessionId,
              sessionEvents := st.sessionEvents ++ [newSessionId] }
  else st

/-- `emitMessage`: auto-update the session id from any message carrying a
truthy `session_id`, then fan the message out to every stream handler paired
with the session id as of delivery (handler exceptions are caught and logged,
so delivery itself is unconditional). -/
def Conversation.emitMessage (st : Conversation) (m : Message) : Conversation :=
  let st1 := if truthy m.session_id then st.updateSessionId m.session_id else st
  { st1 with streamEvents := st1.streamEvents ++ [(m, st1.currentSessionId)] }

/-- One message of `SessionAwareParser.consume`: update the session id when
the message carries one, then emit to the conversation (which repeats the
update idempotently), then run query-local handlers (caught) and store the
message. -/
def consumeStep (st : Conversation) (m : Message) : Conversation :=
  let st1 := if truthy m.session_id then st.updateSessionId m.session_id else st
  st1.emitMessage m

/-- Draining a query's full message sequence through
`SessionAwareParser.consume`. -/
def consume (st : Conversation) (msgs : List Message) : Conversation :=
  msgs.foldl consumeStep st

/-- `getSessionId()`: no disposed check in the source, a plain synchronous
read. -/
def Conversation.getSessionId (st : Conversation) : Except String (Option String) :=
  .ok st.currentSessionId

/-- `isDisposed()`. -/
def Conversation.isDisposed (st : Conversation) : Bool := st.disposed

/-- `query(prompt)`: fail fast when disposed, else construct a fresh streaming
client seeded with the current session id and store it as the active client. -/
def Conversation.query (st : Conversation) (prompt : String) :
    Except String (Conversation × Client) :=
  if st.disposed then .error disposedErr
  else
    let client : Client := ⟨prompt, true, st.keepAliveFlag, false⟩
    .ok ({ st with activeClient := some client }, client)

/-- `stream(handler)`: fail fast when disposed, else register. -/
def Conversation.stream (st : Conversation) : Except String Conversation :=
  if st.disposed then .error disposedErr
  else .ok { st with streamHandlers := st.streamHandlers + 1 }

/-- `onSessionId(callback)`: fail fast when disposed, else register. -/
def Conversation.onSessionId (st : Conversation) : Except String Conversation :=
  if st.disposed then .error disposedErr
  else .ok { st with sessionIdHandlers := st.sessionIdHandlers + 1 }

/-- `onProcessComplete(handler)`: fail fast when disposed, else register. -/
def Conversation.onProcessComplete (st : Conversation) : Except String Conversation :=
  if st.disposed then .error disposedErr
  else .ok { st with processCompleteHandlers := st.processCompleteHandlers + 1 }

/-- `keepAlive(enabled)`: fail fast when disposed, else set the flag. -/
def Conversation.keepAliveSet (st : Conversation) (enabled : Bool) :
    Except String Conversation :=
  if st.disposed then .error disposedErr
  else .ok { st with keepAliveFlag := enabled }

/-- `dispose()`: a no-op when already disposed; otherwise dispose the active
client (best effort), clear it, clear every handler list, and mark disposed. -/
def Conversation.dispose (st : Conversation) : Conversation :=
  if st.disposed then st
  else { st with activeClient := none, streamHandlers := 0, sessionIdHandlers := 0,
                 processCompleteHandlers := 0, disposed := true }

/-- `end()` admission: fail fast when disposed (the protocol itself is
modelled separately as the `endStep` machine). -/
def Conversation.endGuard (st : Conversation) : Except String Unit :=
  if st.disposed then .error disposedErr else .ok ()

/-- `this.activeClient?.hasActiveTransport() ?? false`. -/
def Conversation.hasActiveTransport (st : Conversation) : Bool :=
  match st.activeClient with
  | some c => c.transportActive
  | none => false

/-- Flexible input accepted by `send`. -/
inductive SendInput where
  | str (s : String)
  | block (b : Block)
  | blocks (bs : List Block)
deriving DecidableEq

/-- Structured user-message content. -/
inductive UserContent where
  | str (s : String)
  | blocks (bs : List Block)
deriving DecidableEq

/-- `normalizeUserContent` (the streaming-input revision): a plain string is
passed through as a string, an array as-is, a single block wrapped in an
array. -/
def normalizeUserContent : SendInput → UserContent
  | .str s => .str s
  | .blocks bs => .blocks bs
  | .block b => .blocks [b]

/-- Text extracted from a block for the opening-prompt fallback
(`block.type === 'text' ? block.text : '[non-text]'`). -/
def blockText : Block → String
  | .text t => t
  | _ => "[non-text]"

/-- The opening prompt `send` derives when it must spawn a fresh client. -/
def promptTextOf : SendInput → String
  | .str s => s
  | .blocks bs => String.intercalate " " (bs.map blockText)
  | .block b => blockText b

/-- The user message `send` builds before dispatching. -/
structure UserMessage where
  content : UserContent
  session_id : Option String
deriving DecidableEq

/-- What the background fire-and-forget drain of a spawned client's
`processQuery()` produced: the messages yielded before completion or failure,
and whether the stream then failed. -/
structure BackgroundOutcome where
  msgs : List Message
  failed : Bool
deriving DecidableEq

/-- The body of the background task: each yielded message is emitted to the
conversation; a failure after that is caught by the surrounding
`try`/`catch` and only logged, never propagated. -/
def backgroundDrain (st : Conversation) (bg : BackgroundOutcome) : Conversation :=
  bg.msgs.foldl Conversation.emitMessage st

/-- The caller-visible action `send` performed. -/
inductive SendAction where
  | wroteToActive (msg : UserMessage)
  | spawned (client : Client)
deriving DecidableEq

/-- `send(input)`: fail fast when disposed; when the active client reports an
active transport, write the normalized user message to its stdin and resolve;
otherwise construct one new streaming-mode client with the extracted prompt,
store it as active, and drain its messages in an unawaited background task. -/
def Conversation.send (st : Conversation) (input : SendInput)
    (bg : BackgroundOutcome) : Except String (Conversation × SendAction) :=
  if st.disposed then .error disposedErr
  else
    let userMessage : UserMessage :=
      ⟨normalizeUserContent input,
       if truthy st.currentSessionId then st.currentSessionId else none⟩
    if st.hasActiveTransport then
      .ok (st, .wroteToActive userMessage)
    else
      let client : Client := ⟨promptTextOf input, true, st.keepAliveFlag, false⟩
      let st1 := { st with activeClient := some client }
      .ok (backgroundDrain st1 bg, .spawned client)

/-- The truthy session id a message carries, if any. -/
def sidOf (m : Message) : Option String :=
  if truthy m.session_id then m.session_id else none

/-- Specification of the session-id handler notifications one delivered
message causes: one event with the new value exactly when the message carries
a truthy id different from the current one. -/
def sessionEventOf (cur : Option String) (m : Message) : List (Option String) :=
  match sidOf m with
  | none => []
  | some s => if cur = some s then [] else [some s]

/-- Specification of the tracked id after a drain: the most recently observed
truthy `session_id`, or the initial value when none was observed. -/
def lastObservedSid (init : Option String) (msgs : List Message) : Option String :=
  match (msgs.filterMap sidOf).getLast? with
  | some s => some s
  | none => init

theorem updateSessionId_current (st : Conversation) (v : Option String) :
    (st.updateSessionId v).currentSessionId = v := by
  unfold Conversation.updateSessionId
  split
  · rfl
  · rename_i h
    rw [not_not] at h
    exact h.symm ▸ rfl

theorem updateSessionId_events (st : Conversation) (v : Option String) :
    (st.updateSessionId v).sessionEvents
      = st.sessionEvents ++ (if st.currentSessionId = v then [] else [v]) := by
  unfold Conversation.updateSessionId
  by_cases h : st.currentSessionId = v
  · rw [if_neg (by simpa using h), if_pos h]
    simp
  · rw [if_pos h, if_neg h]

theorem updateSessionId_misc (st : Conversation) (v : Option String) :
    (st.updateSessionId v).activeClient = st.activeClient ∧
    (st.updateSessionId v).disposed = st.disposed ∧
    (st.updateSessionId v).streamEvents = st.streamEvents := by
  unfold Conversation.updateSessionId
  split <;> exact ⟨rfl, rfl, rfl⟩

theorem sidOf_some {m : Message} {s : String} (h : sidOf m = some s) :
    m.session_id = some s ∧ truthy m.session_id = true := by
  unfold sidOf at h
  by_cases ht : truthy m.session_id = true
  · rw [if_pos ht] at h
    exact ⟨h, ht⟩
  · rw [if_neg ht] at h
    cases h

theorem emitMessage_current (st : Conversation) (m : Message) :
    (st.emitMessage m).currentSessionId = (sidOf m).elim st.currentSessionId some := by
  unfold Conversation.emitMessage sidOf
  by_cases ht : truthy m.session_id = true
  · rw [if_pos ht, if_pos ht]
    cases hs : m.session_id with
    | none => rw [hs] at ht; cases ht
    | some s =>
      show (st.updateSessionId (some s)).currentSessionId = _
      rw [updateSessionId_current]
      rfl
  · rw [if_neg ht, if_neg ht]
    rfl

theorem emitMessage_events (st : Conversation) (m : Message) :
    (st.emitMessage m).sessionEvents
      = st.sessionEvents ++ sessionEventOf st.currentSessionId m := by
  unfold Conversation.emitMessage
  by_cases ht : truthy m.session_id = true
  · rw [if_pos ht]
    show (st.updateSessionId m.session_id).sessionEvents = _
    rw [updateSessionId_events]
    unfold sessionEventOf sidOf
    rw [if_pos ht]
    cases hs : m.session_id with
    | none => rw [hs] at ht; cases ht
    | some s =>
      by_cases hc : st.currentSessionId = some s
      · simp [hc]
      · simp [hc]
  · unfold sessionEventOf sidOf
    simp [ht]

theorem emitMessage_activeClient (st : Conversation) (m : Message) :
    (st.emitMessage m).activeClient = st.activeClient := by
  unfold Conversation.emitMessage
  by_cases ht : truthy m.session_id = true
  · rw [if_pos ht]
    exact (updateSessionId_misc st m.session_id).1
  · rw [if_neg ht]

theorem consumeStep_current (st : Conversation) (m : Message) :
    (consumeStep st m).currentSessionId = (sidOf m).elim st.currentSessionId some := by
  unfold consumeStep
  by_cases ht : truthy m.session_id = true
  · rw [if_pos ht, emitMessage_current, updateSessionId_current]
    unfold sidOf
    rw [if_pos ht]
    cases hs : m.session_id with
    | none => rw [hs] at ht; cases ht
    | some s => simp [sidOf, hs, ht]
  · rw [if_neg ht, emitMessage_current]

theorem consumeStep_events (st : Conversation) (m : Message) :
    (consumeStep st m).sessionEvents
      = st.sessionEvents ++ sessionEventOf st.currentSessionId m := by
  unfold consumeStep
  by_cases ht : truthy m.session_id = true
  · rw [if_pos ht, emitMessage_events, updateSessionId_events, updateSessionId_current]
    cases hs : m.session_id with
    | none => rw [hs] at ht; cases ht
    | some s =>
      have hse : sessionEventOf (some s) m = [] := by
        unfold sessionEventOf sidOf
        rw [if_pos ht, hs]
        simp
      have hse2 : sessionEventOf st.currentSessionId m
          = if st.currentSessionId = some s then [] else [some s] := by
        unfold sessionEventOf sidOf
        rw [if_pos ht, hs]
      rw [hse, hse2]
      simp
  · rw [if_neg ht, emitMessage_events]

theorem consume_current (st : Conversation) (msgs : List Message) :
    (consume st msgs).currentSessionId = lastObservedSid st.currentSessionId msgs := by
  induction msgs generalizing st with
  | nil => rfl
  | cons m ms ih =>
    show (consume (consumeStep st m) ms).currentSessionId = _
    rw [ih, consumeStep_current]
    cases hs : sidOf m with
    | none =>
      unfold lastObservedSid
      rw [List.filterMap_cons_none hs]
      rfl
    | some s =>
      unfold lastObservedSid
      rw [List.filterMap_cons_some hs]
      cases hl : List.filterMap sidOf ms with
      | nil => simp
      | cons t ts =>
        rw [List.getLast?_cons_cons]
        cases hgl : (t :: ts).getLast? with
        | none =>
          rw [List.getLast?_eq_none_iff] at hgl
          cases hgl
        | some u => rfl

/-- Claim C5: the conversation's tracked session id always equals the most
recently observed truthy `session_id` across drained messages, regardless of
message type; after a drain `getSessionId()` returns the last observed id (or
the seed when none was observed); and session-id handlers are notified with
the new value exactly when the tracked value changes under value equality,
never for an unchanged id — both on the `consume` drain path and on the
`emitMessage` fan-out path. -/
theorem claim_C5 :
    (∀ (st : Conversation) (msgs : List Message),
      (consume st msgs).getSessionId = .ok (lastObservedSid st.currentSessionId msgs)) ∧
    (∀ (st : Conversation) (m : Message),
      (st.emitMessage m).sessionEvents
          = st.sessionEvents ++ sessionEventOf st.currentSessionId m ∧
      (consumeStep st m).sessionEvents
          = st.sessionEvents ++ sessionEventOf st.currentSessionId m) := by
  constructor
  · intro st msgs
    show Except.ok (consume st msgs).currentSessionId = _
    rw [consume_current]
  · intro st m
    exact ⟨emitMessage_events st m, consumeStep_events st m⟩

/-- Claim C9 (implicit): a delivered message whose `session_id` is absent or
empty never changes the tracked session id and never notifies a session-id
handler; consequently once the tracked id holds a value, no sequence of
delivered messages — drained or fanned out — can reset it to null. -/
theorem claim_C9 :
    (∀ (st : Conversation) (m : Message),
      m.session_id = none ∨ m.session_id = some "" →
      (st.emitMessage m).currentSessionId = st.currentSessionId ∧
      (st.emitMessage m).sessionEvents = st.sessionEvents) ∧
    (∀ (st : Conversation) (msgs : List Message),
      st.currentSessionId.isSome = true →
      ((consume st msgs).currentSessionId).isSome = true ∧
      ((msgs.foldl Conversation.emitMessage st).currentSessionId).isSome = true) := by
  constructor
  · intro st m hm
    have ht : truthy m.session_id = false := by
      rcases hm with hm | hm <;> rw [hm] <;> rfl
    have hsid : sidOf m = none := by
      unfold sidOf
      rw [ht]
      rfl
    constructor
    · rw [emitMessage_current, hsid]
      rfl
    · rw [emitMessage_events]
      unfold sessionEventOf
      rw [hsid]
      simp
  · intro st msgs h
    induction msgs generalizing st with
    | nil => exact ⟨h, h⟩
    | cons m ms ih =>
      have hstep : ∀ cur : Option String, cur.isSome = true →
          ((sidOf m).elim cur some).isSome = true := by
        intro cur hc
        cases sidOf m with
        | none => exact hc
        | some s => rfl
      constructor
      · show ((consume (consumeStep st m) ms).currentSessionId).isSome = true
        exact (ih (consumeStep st m)
          (by rw [consumeStep_current]; exact hstep _ h)).1
      · show ((ms.foldl Conversation.emitMessage (st.emitMessage m)).currentSessionId).isSome = true
        exact (ih (st.emitMessage m)
          (by rw [emitMessage_current]; exact hstep _ h)).2

theorem claim_C9_witness :
    ((⟨"assistant", some [], none⟩ : Message).session_id = none ∨
      (⟨"assistant", some [], none⟩ : Message).session_id = some "") ∧
    ((Conversation.mk0 (some "seed") false).currentSessionId.isSome = true) ∧
    (((Conversation.mk0 (some "seed") false).emitMessage
        ⟨"assistant", some [], none⟩).currentSessionId
      = (Conversation.mk0 (some "seed") false).currentSessionId) ∧
    (((consume (Conversation.mk0 (some "seed") false)
        [⟨"assistant", some [], none⟩]).currentSessionId).isSome = true) := by
  refine ⟨Or.inl rfl, by decide, ?_, ?_⟩
  · exact (claim_C9.1 (Conversation.mk0 (some "seed") false)
      ⟨"assistant", some [], none⟩ (Or.inl rfl)).1
  · exact (claim_C9.2 (Conversation.mk0 (some "seed") false)
      [⟨"assistant", some [], none⟩] (by decide)).1

theorem backgroundDrain_activeClient (st : Conversation) (bg : BackgroundOutcome) :
    (backgroundDrain st bg).activeClient = st.activeClient := by
  unfold backgroundDrain
  induction bg.msgs generalizing st with
  | nil => rfl
  | cons m ms ih =>
    rw [List.foldl_cons, ih, emitMessage_activeClient]

/-- Claim C6: `send` on a non-disposed conversation writes the normalized
user message to the active process's stdin without constructing a new client
when the active client reports an active transport; otherwise it constructs
exactly one new `InternalClient` in streaming mode with the extracted prompt
text as the opening prompt, stores it as the active client, and drains its
message stream in a background task whose failure is caught and logged, never
surfaced through `send`'s own result. -/
theorem claim_C6 (st : Conversation) (input : SendInput) (bg : BackgroundOutcome) :
    (st.disposed = true → st.send input bg = .error disposedErr) ∧
    (st.disposed = false → st.hasActiveTransport = true →
      st.send input bg = .ok (st, .wroteToActive
        ⟨normalizeUserContent input,
         if truthy st.currentSessionId then st.currentSessionId else none⟩)) ∧
    (st.disposed = false → st.hasActiveTransport = false →
      (st.send input bg = .ok
        (backgroundDrain
          { st with activeClient := some ⟨promptTextOf input, true, st.keepAliveFlag, false⟩ } bg,
         .spawned ⟨promptTextOf input, true, st.keepAliveFlag, false⟩) ∧
      (backgroundDrain
          { st with activeClient := some ⟨promptTextOf input, true, st.keepAliveFlag, false⟩ }
          bg).activeClient
        = some ⟨promptTextOf input, true, st.keepAliveFlag, false⟩ ∧
      st.send input ⟨bg.msgs, true⟩ = st.send input ⟨bg.msgs, false⟩)) := by
  refine ⟨?_, ?_, ?_⟩
  · intro hd
    unfold Conversation.send
    rw [if_pos hd]
  · intro hd ha
    unfold Conversation.send
    rw [if_neg (by simp [hd]), if_pos ha]
  · intro hd ha
    refine ⟨?_, ?_, ?_⟩
    · unfold Conversation.send
      rw [if_neg (by simp [hd]), if_neg (by simp [ha])]
    · rw [backgroundDrain_activeClient]
    · simp [Conversation.send, hd, backgroundDrain]

theorem claim_C6_witness :
    ((Conversation.mk0 none false).disposed = false ∧
      (Conversation.mk0 none false).hasActiveTransport = false) ∧
    (Conversation.mk0 none false).send (.str "hello") ⟨[], false⟩ = .ok
      (backgroundDrain
        { Conversation.mk0 none false with
            activeClient := some ⟨"hello", true, false, false⟩ } ⟨[], false⟩,
       .spawned ⟨"hello", true, false, false⟩) := by
  refine ⟨⟨rfl, rfl⟩, ?_⟩
  exact ((claim_C6 (Conversation.mk0 none false) (.str "hello") ⟨[], false⟩).2.2
    rfl rfl).1

/-- A freshly built then disposed conversation. -/
def c8Disposed : Conversation := (Conversation.mk0 none false).dispose

/-- Claim C8 counterexample: `getSessionId()` is a public method, but after
`dispose()` it returns the tracked id normally instead of failing with the
disposed-conversation error, so "every public method fails fast" is false as
stated (the source's `getSessionId` has no disposed check). -/
theorem claim_C8_counterexample :
    c8Disposed.disposed = true ∧
    c8Disposed.getSessionId = .ok none ∧
    c8Disposed.getSessionId ≠ .error disposedErr := by
  refine ⟨rfl, rfl, ?_⟩
  intro h
  cases h

/-- Claim C8 as amended: after `dispose()` every MUTATING public method —
`query`, `send`, `stream`, `onSessionId`, `onProcessComplete`, `keepAlive`,
`end` — fails fast with the disposed-conversation error, while `getSessionId`
and `isDisposed` remain callable, and a second `dispose()` is a no-op. -/
theorem claim_C8 (st : Conversation) (h : st.disposed = true)
    (prompt : String) (input : SendInput) (bg : BackgroundOutcome) (enabled : Bool) :
    st.query prompt = .error disposedErr ∧
    st.send input bg = .error disposedErr ∧
    st.stream = .error disposedErr ∧
    st.onSessionId = .error disposedErr ∧
    st.onProcessComplete = .error disposedErr ∧
    st.keepAliveSet enabled = .error disposedErr ∧
    st.endGuard = .error disposedErr ∧
    st.getSessionId = .ok st.currentSessionId ∧
    st.dispose = st ∧
    (∀ st' : Conversation, st'.dispose.dispose = st'.dispose) := by
  refine ⟨?_, ?_, ?_, ?_, ?_, ?_, ?_, rfl, ?_, ?_⟩
  · unfold Conversation.query
    rw [if_pos h]
  · unfold Conversation.send
    rw [if_pos h]
  · unfold Conversation.stream
    rw [if_pos h]
  · unfold Conversation.onSessionId
    rw [if_pos h]
  · unfold Conversation.onProcessComplete
    rw [if_pos h]
  · unfold Conversation.keepAliveSet
    rw [if_pos h]
  · unfold Conversation.endGuard
    rw [if_pos h]
  · unfold Conversation.dispose
    rw [if_pos h]
  · intro st'
    unfold Conversation.dispose
    by_cases hd : st'.disposed = true
    · simp [hd]
    · simp [hd]

theorem claim_C8_witness :
    c8Disposed.disposed = true ∧
    c8Disposed.query "p" = .error disposedErr ∧
    c8Disposed.send (.str "x") ⟨[], false⟩ = .error disposedErr := by
  refine ⟨rfl, ?_, ?_⟩
  · exact (claim_C8 c8Disposed rfl "p" (.str "x") ⟨[], false⟩ true).1
  · exact (claim_C8 c8Disposed rfl "p" (.str "x") ⟨[], false⟩ true).2.1

/-! ## The `end()` graceful-shutdown machine

`Conversation.end()` scans the active parser's already-buffered messages for
`tool_use` blocks lacking a matching `tool_result` (`checkForPendingToolUses`
/ `checkExistingMessages`), installs a temporary stream subscriber
(`messageHandler`), and races: emptying of the pending set, the 100ms settle
timer guarded by `hasFoundToolUse`, and the unconditional 30s ceiling timer.
Timers and message deliveries are explicit events; `terminateProcess`
(unsubscribe, cancel timers, terminate, clear active client, resolve) is the
sticky `terminated` flag. -/

/-- State of one `end()` call: the `pendingToolUseIds` set, the
`hasFoundToolUse` flag, and whether `terminateProcess` has been triggered. -/
structure EndSt where
  pending : Finset String
  hasFoundToolUse : Bool
  terminated : Bool
deriving DecidableEq

/-- One block of `checkForPendingToolUses`: record a truthy `tool_use` id in
the found set, a truthy `tool_result` target in the completed set. -/
def collectBlockStep (acc : Finset String × Finset String) (b : Block) :
    Finset String × Finset String :=
  match b with
  | .toolUse id _ => if id ≠ "" then (insert id acc.1, acc.2) else acc
  | .toolResult tid => if tid ≠ "" then (acc.1, insert tid acc.2) else acc
  | _ => acc

/-- One message of `checkForPendingToolUses`: only `assistant` messages with
present content are scanned. -/
def collectMsgStep (acc : Finset String × Finset String) (m : Message) :
    Finset String × Finset String :=
  if m.mtype = "assistant" ∧ m.content.isSome then
    (m.content.getD []).foldl collectBlockStep acc
  else acc

/-- `checkForPendingToolUses`: collect `tool_use` ids and `tool_result`
target ids over the `assistant` messages (with present content) of a list. -/
def collectToolSets (msgs : List Message) : Finset String × Finset String :=
  msgs.foldl collectMsgStep (∅, ∅)

/-- `checkExistingMessages`: seed the pending set from the buffered messages;
`hasFoundToolUse` is set only when the seeded pending set is non-empty. -/
def endInit (buffered : List Message) : EndSt :=
  if 0 < ((collectToolSets buffered).1.filter
      (fun id => id ∉ (collectToolSets buffered).2)).card then
    ⟨(collectToolSets buffered).1.filter (fun id => id ∉ (collectToolSets buffered).2),
      true, false⟩
  else ⟨∅, false, false⟩

/-- One block of the temporary `messageHandler`: a `tool_use` with a truthy
id joins the pending set and marks `hasFoundToolUse`; a matching
`tool_result` leaves the set and, on emptying it, triggers termination (the
handler's loop keeps running over the remaining blocks of the message). -/
def endBlockStep (st : EndSt) (b : Block) : EndSt :=
  match b with
  | .toolUse id _ =>
      if id ≠ "" then { st with pending := insert id st.pending, hasFoundToolUse := true }
      else st
  | .toolResult tid =>
      if tid ≠ "" ∧ tid ∈ st.pending then
        let p := st.pending.erase tid
        if p.card = 0 then { st with pending := p, terminated := true }
        else { st with pending := p }
      else st
  | _ => st

/-- An event observable by a pending `end()` call. -/
inductive EndEvent where
  | msg (m : Message)
  | settle
  | ceiling
deriving DecidableEq

/-- One event of the `end()` race.  After termination the handler is
unsubscribed and the timers cancelled, so every further event is inert. -/
def endStep (st : EndSt) (e : EndEvent) : EndSt :=
  if st.terminated then st
  else
    match e with
    | .msg m =>
        if m.mtype = "assistant" ∧ m.content.isSome then
          (m.content.getD []).foldl endBlockStep st
        else st
    | .settle => if st.hasFoundToolUse then st else { st with terminated := true }
    | .ceiling => { st with terminated := true }

/-- An `end()` call: initial scan of the buffered messages, then the event
race. -/
def endRun (buffered : List Message) (events : List EndEvent) : EndSt :=
  events.foldl endStep (endInit buffered)

theorem endStep_of_terminated {st : EndSt} (h : st.terminated = true)
    (e : EndEvent) : endStep st e = st := by
  unfold endStep
  rw [if_pos h]

theorem endStep_msg_of_live {st : EndSt} (h : ¬ st.terminated = true)
    (m : Message) :
    endStep st (EndEvent.msg m)
      = if m.mtype = "assistant" ∧ m.content.isSome then
          (m.content.getD []).foldl endBlockStep st
        else st := by
  unfold endStep
  rw [if_neg h]

theorem endStep_settle_of_live {st : EndSt} (h : ¬ st.terminated = true) :
    endStep st EndEvent.settle
      = if st.hasFoundToolUse = true then st else { st with terminated := true } := by
  unfold endStep
  rw [if_neg h]

theorem endStep_ceiling_of_live {st : EndSt} (h : ¬ st.terminated = true) :
    endStep st EndEvent.ceiling = { st with terminated := true } := by
  unfold endStep
  rw [if_neg h]

theorem endBlockStep_terminated_mono (st : EndSt) (b : Block)
    (h : st.terminated = true) : (endBlockStep st b).terminated = true := by
  cases b with
  | toolUse id name =>
    simp only [endBlockStep]
    by_cases hid : id ≠ ""
    · rw [if_pos hid]
      exact h
    · rw [if_neg hid]
      exact h
  | toolResult tid =>
    simp only [endBlockStep]
    by_cases hc : tid ≠ "" ∧ tid ∈ st.pending
    · rw [if_pos hc]
      by_cases hz : (st.pending.erase tid).card = 0
      · simp [hz]
      · rw [if_neg hz]
        exact h
    · rw [if_neg hc]
      exact h
  | text t => exact h
  | other => exact h

theorem endBlockFold_terminated_mono (bs : List Block) (st : EndSt)
    (h : st.terminated = true) : (bs.foldl endBlockStep st).terminated = true := by
  induction bs generalizing st with
  | nil => exact h
  | cons b bs ih => exact ih _ (endBlockStep_terminated_mono st b h)

theorem endStep_terminated_mono (st : EndSt) (e : EndEvent)
    (h : st.terminated = true) : (endStep st e).terminated = true := by
  rw [endStep_of_terminated h]
  exact h

theorem endFold_terminated_mono (es : List EndEvent) (st : EndSt)
    (h : st.terminated = true) : (es.foldl endStep st).terminated = true := by
  induction es generalizing st with
  | nil => exact h
  | cons e es ih => exact ih _ (endStep_terminated_mono st e h)

/-- A block step never empties the pending set silently: when the set was
non-empty and becomes empty, the termination flag has been set. -/
theorem endBlockStep_empty_terminates (st : EndSt) (b : Block)
    (hne : st.pending.Nonempty) (he : (endBlockStep st b).pending = ∅) :
    (endBlockStep st b).terminated = true := by
  cases b with
  | toolUse id name =>
    simp only [endBlockStep] at he ⊢
    by_cases hid : id ≠ ""
    · rw [if_pos hid] at he
      simp only at he
      exact absurd he (by simp [Finset.insert_ne_empty])
    · rw [if_neg hid] at he
      exact absurd he (Finset.nonempty_iff_ne_empty.mp hne)
  | toolResult tid =>
    simp only [endBlockStep] at he ⊢
    by_cases hc : tid ≠ "" ∧ tid ∈ st.pending
    · rw [if_pos hc] at he ⊢
      by_cases hz : (st.pending.erase tid).card = 0
      · simp [hz]
      · rw [if_neg hz] at he ⊢
        simp only at he
        exact absurd (Finset.card_eq_zero.mpr he) hz
    · rw [if_neg hc] at he
      exact absurd he (Finset.nonempty_iff_ne_empty.mp hne)
  | text t => exact absurd he (Finset.nonempty_iff_ne_empty.mp hne)
  | other => exact absurd he (Finset.nonempty_iff_ne_empty.mp hne)

theorem endBlockFold_empty_terminates (bs : List Block) (st : EndSt)
    (hne : st.pending.Nonempty) (he : (bs.foldl endBlockStep st).pending = ∅) :
    (bs.foldl endBlockStep st).terminated = true := by
  induction bs generalizing st with
  | nil => exact absurd he (Finset.nonempty_iff_ne_empty.mp hne)
  | cons b bs ih =>
    rw [List.foldl_cons] at he ⊢
    by_cases hp : (endBlockStep st b).pending = ∅
    · exact endBlockFold_terminated_mono bs _
        (endBlockStep_empty_terminates st b hne hp)
    · exact ih _ (Finset.nonempty_iff_ne_empty.mpr hp) he

/-- Whether the temporary `end()` subscriber would observe a tool use in this
message: an `assistant` message with present content containing a `tool_use`
block with a truthy id. -/
def observesToolUse (m : Message) : Bool :=
  (m.mtype == "assistant" && m.content.isSome) &&
    (m.content.getD []).any (fun b =>
      match b with
      | .toolUse id _ => id != ""
      | _ => false)

theorem endBlockStep_hasFound (st : EndSt) (b : Block)
    (hb : (match b with | Block.toolUse id _ => id != "" | _ => false) = false)
    (h : st.hasFoundToolUse = false) :
    (endBlockStep st b).hasFoundToolUse = false := by
  cases b with
  | toolUse id name =>
    simp only [endBlockStep]
    simp only at hb
    rw [if_neg (by simpa using hb)]
    exact h
  | toolResult tid =>
    simp only [endBlockStep]
    by_cases hc : tid ≠ "" ∧ tid ∈ st.pending
    · rw [if_pos hc]
      by_cases hz : (st.pending.erase tid).card = 0
      · simp [hz, h]
      · rw [if_neg hz]
        exact h
    · rw [if_neg hc]
      exact h
  | text t => exact h
  | other => exact h

theorem endBlockFold_hasFound (bs : List Block) :
    ∀ st : EndSt, bs.any (fun b =>
      match b with | Block.toolUse id _ => id != "" | _ => false) = false →
    st.hasFoundToolUse = false →
    (bs.foldl endBlockStep st).hasFoundToolUse = false := by
  induction bs with
  | nil => intro st _ h; exact h
  | cons b bs ih =>
    intro st hb h
    rw [List.any_cons, Bool.or_eq_false_iff] at hb
    exact ih _ hb.2 (endBlockStep_hasFound st b hb.1 h)

theorem endStep_hasFound (st : EndSt) (e : EndEvent)
    (he : ∀ m, e = EndEvent.msg m → observesToolUse m = false)
    (h : st.hasFoundToolUse = false) :
    (endStep st e).hasFoundToolUse = false := by
  by_cases ht : st.terminated = true
  · rw [endStep_of_terminated ht]
    exact h
  · cases e with
    | msg m =>
      rw [endStep_msg_of_live ht]
      by_cases hcond : m.mtype = "assistant" ∧ m.content.isSome
      · rw [if_pos hcond]
        have hobs := he m rfl
        unfold observesToolUse at hobs
        rw [Bool.and_eq_false_iff] at hobs
        rcases hobs with hobs | hobs
        · exact absurd hobs (by simp [hcond.1, hcond.2])
        · exact endBlockFold_hasFound _ st hobs h
      · rw [if_neg hcond]
        exact h
    | settle =>
      rw [endStep_settle_of_live ht, if_neg (by simp [h])]
      exact h
    | ceiling =>
      rw [endStep_ceiling_of_live ht]
      exact h

theorem collectBlockStep_found (acc : Finset String × Finset String) (b : Block)
    (hb : (match b with | Block.toolUse id _ => id != "" | _ => false) = false) :
    (collectBlockStep acc b).1 = acc.1 := by
  cases b with
  | toolUse id name =>
    simp only [collectBlockStep]
    simp only at hb
    rw [if_neg (by simpa using hb)]
  | toolResult tid =>
    simp only [collectBlockStep]
    by_cases hc : tid ≠ ""
    · rw [if_pos hc]
    · rw [if_neg hc]
  | text t => rfl
  | other => rfl

theorem collectBlockFold_found (bs : List Block) :
    ∀ acc : Finset String × Finset String, bs.any (fun b =>
      match b with | Block.toolUse id _ => id != "" | _ => false) = false →
    (bs.foldl collectBlockStep acc).1 = acc.1 := by
  induction bs with
  | nil => intro acc _; rfl
  | cons b bs ih =>
    intro acc hb
    rw [List.any_cons, Bool.or_eq_false_iff] at hb
    rw [List.foldl_cons, ih _ hb.2, collectBlockStep_found acc b hb.1]

theorem collectToolSets_found (msgs : List Message)
    (h : ∀ m ∈ msgs, observesToolUse m = false) :
    (collectToolSets msgs).1 = ∅ := by
  suffices H : ∀ acc : Finset String × Finset String,
      (msgs.foldl collectMsgStep acc).1 = acc.1 by
    exact H (∅, ∅)
  induction msgs with
  | nil => intro acc; rfl
  | cons m ms ih =>
    intro acc
    rw [List.foldl_cons]
    have hm := h m (by simp)
    have hstep : (collectMsgStep acc m).1 = acc.1 := by
      unfold collectMsgStep
      by_cases hcond : m.mtype = "assistant" ∧ m.content.isSome
      · rw [if_pos hcond]
        unfold observesToolUse at hm
        rw [Bool.and_eq_false_iff] at hm
        rcases hm with hm | hm
        · exact absurd hm (by simp [hcond.1, hcond.2])
        · exact collectBlockFold_found _ acc hm
      · rw [if_neg hcond]

    rw [ih (fun x hx => h x (by simp [hx])) (collectMsgStep acc m), hstep]

theorem endInit_noToolUse (buffered : List Message)
    (h : ∀ m ∈ buffered, observesToolUse m = false) :
    endInit buffered = ⟨∅, false, false⟩ := by
  have hempty : (collectToolSets buffered).1.filter
      (fun id => id ∉ (collectToolSets buffered).2) = ∅ := by
    rw [collectToolSets_found buffered h]
    rfl
  unfold endInit
  rw [hempty]
  simp

/-- Claim C1: the `end()` shutdown protocol terminates the subprocess
according to its three-way race: (a) the moment a delivered message empties a
non-empty pending tool-use set, termination triggers immediately at that
event; (b) when no tool use was ever observed — neither in the initial scan
of buffered messages nor by the temporary subscriber — the 100ms settle
delay terminates it; (c) the 30-second ceiling terminates it in every case,
whatever the pending state. -/
theorem claim_C1 :
    (∀ (st : EndSt) (m : Message), st.pending.Nonempty →
      (endStep st (EndEvent.msg m)).pending = ∅ →
      (endStep st (EndEvent.msg m)).terminated = true) ∧
    (∀ (buffered : List Message) (events : List EndEvent),
      (∀ m ∈ buffered, observesToolUse m = false) →
      (∀ e ∈ events, ∀ m, e = EndEvent.msg m → observesToolUse m = false) →
      (endRun buffered (events ++ [EndEvent.settle])).terminated = true) ∧
    (∀ (buffered : List Message) (events : List EndEvent),
      (endRun buffered (events ++ [EndEvent.ceiling])).terminated = true) := by
  refine ⟨?_, ?_, ?_⟩
  · intro st m hne he
    by_cases ht : st.terminated = true
    · rw [endStep_of_terminated ht]
      exact ht
    · rw [endStep_msg_of_live ht] at he ⊢
      by_cases hcond : m.mtype = "assistant" ∧ m.content.isSome
      · rw [if_pos hcond] at he ⊢
        exact endBlockFold_empty_terminates _ st hne he
      · rw [if_neg hcond] at he
        exact absurd he (Finset.nonempty_iff_ne_empty.mp hne)
  · intro buffered events hbuf hev
    unfold endRun
    rw [List.foldl_append]
    have hFound : ∀ (es : List EndEvent), (∀ e ∈ es, ∀ m, e = EndEvent.msg m →
        observesToolUse m = false) →
        ∀ st : EndSt, st.hasFoundToolUse = false →
        (es.foldl endStep st).hasFoundToolUse = false := by
      intro es
      induction es with
      | nil => intro _ st h; exact h
      | cons e es ih =>
        intro he st h
        rw [List.foldl_cons]
        exact ih (fun x hx => he x (by simp [hx]))
          _ (endStep_hasFound st e (fun m hm => he e (by simp) m hm) h)
    have hinit : (endInit buffered).hasFoundToolUse = false := by
      rw [endInit_noToolUse buffered hbuf]
    have hfold := hFound events hev (endInit buffered) hinit
    rw [List.foldl_cons, List.foldl_nil]
    by_cases ht : (events.foldl endStep (endInit buffered)).terminated = true
    · rw [endStep_of_terminated ht]
      exact ht
    · rw [endStep_settle_of_live ht, if_neg (by simp [hfold])]
  · intro buffered events
    unfold endRun
    rw [List.foldl_append, List.foldl_cons, List.foldl_nil]
    by_cases ht : (events.foldl endStep (endInit buffered)).terminated = true
    · rw [endStep_of_terminated ht]
      exact ht
    · rw [endStep_ceiling_of_live ht]

theorem claim_C1_witness :
    ((⟨{"t1"}, true, false⟩ : EndSt).pending.Nonempty ∧
      (endStep ⟨{"t1"}, true, false⟩
        (EndEvent.msg ⟨"assistant", some [Block.toolResult "t1"], none⟩)).pending = ∅) ∧
    (endStep ⟨{"t1"}, true, false⟩
      (EndEvent.msg ⟨"assistant", some [Block.toolResult "t1"], none⟩)).terminated = true ∧
    (endRun [] [EndEvent.settle]).terminated = true ∧
    (endRun [⟨"assistant", some [Block.toolUse "t1" "Read"], none⟩]
      [EndEvent.ceiling]).terminated = true := by
  refine ⟨⟨by decide, by decide⟩, ?_, ?_, ?_⟩
  · exact claim_C1.1 ⟨{"t1"}, true, false⟩
      ⟨"assistant", some [Block.toolResult "t1"], none⟩ (by decide) (by decide)
  · exact claim_C1.2.1 [] [] (by intro m hm; cases hm)
      (by intro e he; cases he)
  · exact claim_C1.2.2 [⟨"assistant", some [Block.toolUse "t1" "Read"], none⟩] []

/-! ## `receiveMessages` after the frame stream ends

After the yield loop exhausts the decoded frames, `receiveMessages` awaits
`this.process`; on clean resolution it calls every registered
process-complete handler with exit code `0`; on rejection it calls every
handler with `error.exitCode ?? 1` and the causing error, then throws a
`ProcessError` whenever `error.exitCode !== 0`.  Handler exceptions are
caught individually and only logged.  The sequencing is modelled as an
explicit event trace. -/

/-- How `await this.process` resolved: cleanly, or rejected with an error
whose `exitCode` property may itself be absent (spawn-time failure). -/
inductive ExitOutcome where
  | success
  | failure (exitCode : Option Int)
deriving DecidableEq

/-- One invocation of a process-complete handler: the exit code passed and
whether the causing error argument was supplied. -/
structure CompletionCall where
  exitCode : Int
  hasError : Bool
deriving DecidableEq

/-- The calls made to the registered handlers (each handler is invoked
exactly once, in registration order, even if an earlier one throws — the
`Bool` says whether that handler itself throws, which is caught). -/
def completionCalls (handlers : List Bool) (outcome : ExitOutcome) :
    List CompletionCall :=
  match outcome with
  | .success => handlers.map (fun _ => ⟨0, false⟩)
  | .failure ec => handlers.map (fun _ => ⟨ec.getD 1, true⟩)

/-- The `ProcessError` raised after the handlers ran, if any, carrying
`error.exitCode` verbatim: raised exactly when the await rejected with
`exitCode !== 0`. -/
def raisedProcessError (outcome : ExitOutcome) : Option (Option Int) :=
  match outcome with
  | .success => none
  | .failure ec => if ec = some 0 then none else some ec

/-- Observable events of one `receiveMessages` run, in order. -/
inductive RMEvent where
  | yielded (frame : JStr)
  | exited
  | handlerCalled (call : CompletionCall)
  | raised (exitCode : Option Int)
deriving DecidableEq

/-- The event trace of `receiveMessages`: every decoded frame is yielded,
then the process exit is awaited, then the completion handlers run, then the
`ProcessError` is raised if due. -/
def receiveTrace (frames : List JStr) (handlers : List Bool)
    (outcome : ExitOutcome) : List RMEvent :=
  frames.map RMEvent.yielded ++ RMEvent.exited ::
    ((completionCalls handlers outcome).map RMEvent.handlerCalled ++
      (match raisedProcessError outcome with
       | some ec => [RMEvent.raised ec]
       | none => []))

/-- Whether an event is a completion-handler invocation. -/
def RMEvent.isHandlerCall : RMEvent → Bool
  | .handlerCalled _ => true
  | _ => false

/-- Whether an event is a frame yield or the process-exit observation. -/
def RMEvent.isYieldOrExit : RMEvent → Bool
  | .yielded _ => true
  | .exited => true
  | _ => false

theorem receiveTrace_tail_no_yield (frames : List JStr) (handlers : List Bool)
    (outcome : ExitOutcome) :
    ∀ e ∈ (completionCalls handlers outcome).map RMEvent.handlerCalled ++
      (match raisedProcessError outcome with
       | some ec => [RMEvent.raised ec]
       | none => []), e.isYieldOrExit = false := by
  intro e he
  rw [List.mem_append] at he
  rcases he with he | he
  · rw [List.mem_map] at he
    obtain ⟨c, -, rfl⟩ := he
    rfl
  · cases hr : raisedProcessError outcome with
    | none =>
      rw [hr] at he
      cases he
    | some ec =>
      rw [hr] at he
      rcases List.mem_singleton.mp he with rfl
      rfl

theorem receiveTrace_head_no_handler (frames : List JStr) :
    ∀ e ∈ frames.map RMEvent.yielded ++ [RMEvent.exited], e.isHandlerCall = false := by
  intro e he
  rw [List.mem_append] at he
  rcases he with he | he
  · rw [List.mem_map] at he
    obtain ⟨f, -, rfl⟩ := he
    rfl
  · rcases List.mem_singleton.mp he with rfl
    rfl

/-- Claim C7: after the frame stream ends `receiveMessages` awaits actual
process exit and only then invokes every registered completion handler —
each exactly once, with code 0 and no error on clean exit, with
`exitCode ?? 1` and the causing error on rejection — and afterwards raises a
`ProcessError` exactly when the rejection's exit code is non-zero; in the
event trace every handler invocation comes strictly after every yielded
frame and after the exit observation. -/
theorem claim_C7 (frames : List JStr) (handlers : List Bool)
    (outcome : ExitOutcome) :
    (completionCalls handlers outcome).length = handlers.length ∧
    (outcome = .success →
      ∀ c ∈ completionCalls handlers outcome, c = ⟨0, false⟩) ∧
    (∀ ec, outcome = .failure ec →
      ∀ c ∈ completionCalls handlers outcome, c = ⟨ec.getD 1, true⟩) ∧
    ((raisedProcessError outcome).isSome = true ↔
      ∃ ec, outcome = .failure ec ∧ ec ≠ some 0) ∧
    (∀ (i j : Nat) (hi : i < (receiveTrace frames handlers outcome).length)
        (hj : j < (receiveTrace frames handlers outcome).length),
      ((receiveTrace frames handlers outcome)[i]).isHandlerCall = true →
      ((receiveTrace frames handlers outcome)[j]).isYieldOrExit = true →
      j < i) := by
  refine ⟨?_, ?_, ?_, ?_, ?_⟩
  · cases outcome <;> simp [completionCalls]
  · intro hs c hc
    subst hs
    unfold completionCalls at hc
    rw [List.mem_map] at hc
    obtain ⟨b, -, rfl⟩ := hc
    rfl
  · intro ec hf c hc
    subst hf
    unfold completionCalls at hc
    rw [List.mem_map] at hc
    obtain ⟨b, -, rfl⟩ := hc
    rfl
  · cases outcome with
    | success => simp [raisedProcessError]
    | failure ec =>
      unfold raisedProcessError
      by_cases h0 : ec = some 0
      · simp [h0]
      · simp [h0]
  · intro i j hi hj hcall hyield
    have hlenA : (frames.map RMEvent.yielded ++ [RMEvent.exited]).length
        = frames.length + 1 := by simp
    have htr : receiveTrace frames handlers outcome
        = (frames.map RMEvent.yielded ++ [RMEvent.exited]) ++
          ((completionCalls handlers outcome).map RMEvent.handlerCalled ++
            (match raisedProcessError outcome with
             | some ec => [RMEvent.raised ec]
             | none => [])) := by
      unfold receiveTrace
      simp
    have hib : frames.length + 1 ≤ i := by
      by_contra hlt
      push_neg at hlt
      have hi' : i < (frames.map RMEvent.yielded ++ [RMEvent.exited]).length := by
        omega
      have hig : (receiveTrace frames handlers outcome)[i]
          = (frames.map RMEvent.yielded ++ [RMEvent.exited])[i] := by
        rw [List.getElem_of_eq htr hi]
        exact List.getElem_append_left hi'
      rw [hig] at hcall
      have hfalse := receiveTrace_head_no_handler frames _
        (List.getElem_mem hi')
      rw [hcall] at hfalse
      cases hfalse
    have hjb : j < frames.length + 1 := by
      by_contra hge
      push_neg at hge
      have hjlen : j < (receiveTrace frames handlers outcome).length := hj
      rw [htr] at hjlen
      rw [List.length_append, hlenA] at hjlen
      have hj2 : j - (frames.length + 1)
          < ((completionCalls handlers outcome).map RMEvent.handlerCalled ++
            (match raisedProcessError outcome with
             | some ec => [RMEvent.raised ec]
             | none => [])).length := by
        omega
      have hjg : (receiveTrace frames handlers outcome)[j]
          = ((completionCalls handlers outcome).map RMEvent.handlerCalled ++
            (match raisedProcessError outcome with
             | some ec => [RMEvent.raised ec]
             | none => []))[j - (frames.length + 1)] := by
        rw [List.getElem_of_eq htr hj]
        rw [List.getElem_append_right (by rw [hlenA]; omega)]
        congr 1
        rw [hlenA]
      rw [hjg] at hyield
      have hfalse := receiveTrace_tail_no_yield frames handlers outcome _
        (List.getElem_mem hj2)
      rw [hyield] at hfalse
      cases hfalse
    omega

theorem claim_C7_witness :
    (ExitOutcome.failure (some 3) = ExitOutcome.failure (some 3) ∧
      (some 3 : Option Int) ≠ some 0) ∧
    (completionCalls [false, true] (ExitOutcome.failure (some 3))).length = 2 ∧
    (∀ c ∈ completionCalls [false, true] (ExitOutcome.failure (some 3)),
      c = ⟨3, true⟩) ∧
    (raisedProcessError (ExitOutcome.failure (some 3))).isSome = true := by
  refine ⟨⟨rfl, by decide⟩, ?_, ?_, ?_⟩
  · exact (claim_C7 [] [false, true] (ExitOutcome.failure (some 3))).1
  · intro c hc
    have h := (claim_C7 [] [false, true] (ExitOutcome.failure (some 3))).2.2.1
      (some 3) rfl c hc
    exact h
  · exact ((claim_C7 [] [false, true]
      (ExitOutcome.failure (some 3))).2.2.2.1).mpr ⟨some 3, rfl, by decide⟩

/-! ## `InternalClient.parseMessage`

The message router of client.ts: a decoded frame's `type` field selects the
variant; absent fields are defaulted with `||`.  The `usage`/`cost`
pass-through of `result` frames carries no logic relevant to any claim and is
elided. -/

/-- The `message.content` payload of a frame: string or content blocks. -/
inductive CLIContent where
  | str (s : String)
  | blocks (bs : List Block)
deriving DecidableEq

/-- JS falsiness of a present content value (`'' || d` picks `d`; any array,
even empty, is kept). -/
def cliContentFalsy : CLIContent → Bool
  | .str s => s == ""
  | .blocks _ => false

/-- The `message` sub-object of a frame, as far as `parseMessage` reads it. -/
structure CLIMessageField where
  content : Option CLIContent
deriving DecidableEq

/-- A decoded stdout frame, with the fields `parseMessage` reads. -/
structure CLIOutput where
  otype : String
  message : Option CLIMessageField
  subtype : Option String
  is_error : Option Bool
  result : Option String
  session_id : Option String
  errorMessage : Option String
deriving DecidableEq

/-- `output.message?.content || dflt`. -/
def contentOrDefault (m : Option CLIMessageField) (dflt : CLIContent) : CLIContent :=
  match m with
  | none => dflt
  | some mf =>
    match mf.content with
    | none => dflt
    | some c => if cliContentFalsy c then dflt else c

/-- `output.result || ''`. -/
def strOrEmpty : Option String → String
  | none => ""
  | some s => if s == "" then "" else s

/-- The routed message `parseMessage` constructs. -/
inductive ParsedMessage where
  | user (content : CLIContent) (session_id : Option String)
  | assistant (content : CLIContent) (session_id : Option String)
  | system (subtype : Option String) (session_id : Option String)
  | result (subtype : Option String) (is_error : Option Bool)
      (content : String) (result : String) (session_id : Option String)
deriving DecidableEq

/-- `InternalClient.parseMessage`: route one frame by its `type`
discriminator; `error` frames raise a `ClaudeSDKError`; unknown types are
skipped with `null`. -/
def parseMessage (output : CLIOutput) : Except String (Option ParsedMessage) :=
  if output.otype = "user" then
    .ok (some (.user (contentOrDefault output.message (.str "")) output.session_id))
  else if output.otype = "assistant" then
    .ok (some (.assistant (contentOrDefault output.message (.blocks [])) output.session_id))
  else if output.otype = "system" then
    .ok (some (.system output.subtype output.session_id))
  else if output.otype = "result" then
    .ok (some (.result output.subtype output.is_error
      (strOrEmpty output.result) (strOrEmpty output.result) output.session_id))
  else if output.otype = "error" then
    .error ("CLI error: " ++ output.errorMessage.getD "Unknown error")
  else .ok none

theorem contentOrDefault_absent {m : Option CLIMessageField} (dflt : CLIContent)
    (h : m = none ∨ m = some ⟨none⟩) : contentOrDefault m dflt = dflt := by
  rcases h with rfl | rfl <;> rfl

/-- Claim C10 (implicit): `parseMessage` totalizes malformed-but-known frames
with defaults instead of failing — a `user` frame with absent
`message.content` parses with content `''`, an `assistant` frame with absent
content parses with content `[]`, a `result` frame with absent `result`
parses with content `''` and result `''` — and in each case `session_id` is
propagated verbatim, possibly absent. -/
theorem claim_C10 (output : CLIOutput) :
    (output.otype = "user" → output.message = none ∨ output.message = some ⟨none⟩ →
      parseMessage output
        = .ok (some (.user (.str "") output.session_id))) ∧
    (output.otype = "assistant" → output.message = none ∨ output.message = some ⟨none⟩ →
      parseMessage output
        = .ok (some (.assistant (.blocks []) output.session_id))) ∧
    (output.otype = "result" → output.result = none →
      parseMessage output
        = .ok (some (.result output.subtype output.is_error "" "" output.session_id))) := by
  refine ⟨?_, ?_, ?_⟩
  · intro ht hm
    unfold parseMessage
    rw [if_pos ht, contentOrDefault_absent _ hm]
  · intro ht hm
    unfold parseMessage
    rw [if_neg (by rw [ht]; decide), if_pos ht, contentOrDefault_absent _ hm]
  · intro ht hr
    unfold parseMessage
    rw [if_neg (by rw [ht]; decide), if_neg (by rw [ht]; decide),
      if_neg (by rw [ht]; decide), if_pos ht, hr]
    rfl

theorem claim_C10_witness :
    ((⟨"user", none, none, none, none, some "sid", none⟩ : CLIOutput).otype = "user" ∧
      ((⟨"user", none, none, none, none, some "sid", none⟩ : CLIOutput).message = none ∨
        (⟨"user", none, none, none, none, some "sid", none⟩ : CLIOutput).message
          = some ⟨none⟩)) ∧
    parseMessage ⟨"user", none, none, none, none, some "sid", none⟩
      = .ok (some (.user (.str "") (some "sid"))) ∧
    parseMessage ⟨"assistant", some ⟨none⟩, none, none, none, none, none⟩
      = .ok (some (.assistant (.blocks []) none)) ∧
    parseMessage ⟨"result", none, some "success", some false, none, some "sid", none⟩
      = .ok (some (.result (some "success") (some false) "" "" (some "sid"))) := by
  refine ⟨⟨rfl, Or.inl rfl⟩, ?_, ?_, ?_⟩
  · exact (claim_C10 ⟨"user", none, none, none, none, some "sid", none⟩).1
      rfl (Or.inl rfl)
  · exact (claim_C10 ⟨"assistant", some ⟨none⟩, none, none, none, none, none⟩).2.1
      rfl (Or.inr rfl)
  · exact (claim_C10
      ⟨"result", none, some "success", some false, none, some "sid", none⟩).2.2
      rfl rfl

/-! ## Stdin wire format of follow-up messages

`InternalClient.sendStreamingInput` (client.ts) serializes the user envelope
itself and hands the resulting JSONL *string* to
`SubprocessCLITransport.writeToStdin` (subprocess-cli.ts), which in streaming
mode wraps whatever string it receives in a fresh envelope of its own. -/

/-- The envelope `{ "type": "user", "message": { "role": "user",
"content": <content> } }` that both layers build. -/
def envelopeJson (content : Json) : Json :=
  .obj (.cons "type".toList (.str "user".toList)
    (.cons "message".toList
      (.obj (.cons "role".toList (.str "user".toList)
        (.cons "content".toList content .nil))) .nil))

/-- `InternalClient.sendStreamingInput`: build the envelope around the user
content, `JSON.stringify` it, append a newline, and pass the resulting string
to `transport.writeToStdin`. -/
def sendStreamingInput_jsonlString (content : Json) : JStr :=
  serJson (envelopeJson content) ++ ['\n']

/-- `SubprocessCLITransport.writeToStdin` in streaming mode: wrap the incoming
string `data` in a fresh envelope whose content is the one-element array
`[{ "type": "text", "text": data }]`, stringify, append a newline, and write
those bytes to the process stdin. -/
def writeToStdin_bytes (data : JStr) : JStr :=
  serJson (envelopeJson (.arr (.cons
    (.obj (.cons "type".toList (.str "text".toList)
      (.cons "text".toList (.str data) .nil))) .nil))) ++ ['\n']

/-- The bytes reaching the subprocess stdin for one follow-up message on an
active streaming transport: the composition of the two layers. -/
def sendStreamingInput_bytes (content : Json) : JStr :=
  writeToStdin_bytes (sendStreamingInput_jsonlString content)

/-- Modelled from the spec: the claimed wire format — exactly one serialized
envelope with the user content appearing directly as its `content` field,
followed by a single newline. -/
def specSingleEnvelope (content : Json) : JStr :=
  serJson (envelopeJson content) ++ ['\n']

/-- Claim C3: the bytes written to stdin for a follow-up message are claimed
to be exactly one envelope with the user content appearing directly as the
`content` field, newline-terminated.  The claim FAILS: the client serializes
the envelope itself, and the transport — unaware it already received JSONL —
wraps that string in a second envelope whose content is a one-element text
block array carrying the entire inner serialization (newline included) as a
string.  Shown on the concrete content `"hi"`: the written bytes differ from
the single envelope and instead equal a single envelope around the text-block
wrapping of the inner envelope's serialization. -/
theorem claim_C3 :
    (∀ content : Json, sendStreamingInput_bytes content
      = writeToStdin_bytes (specSingleEnvelope content)) ∧
    sendStreamingInput_bytes (.str "hi".toList)
      ≠ specSingleEnvelope (.str "hi".toList) ∧
    sendStreamingInput_bytes (.str "hi".toList)
      = specSingleEnvelope (.arr (.cons
          (.obj (.cons "type".toList (.str "text".toList)
            (.cons "text".toList
              (.str (serJson (envelopeJson (.str "hi".toList)) ++ ['\n']))
              .nil)))
          .nil)) := by
  refine ⟨fun _ => rfl, ?_, rfl⟩
  decide

end SpecProof
